import Mathlib

/-!
# Verification of the Plackett-Luce ranking program (`pl_ranking.py`)

Shallow embedding of the program's data model and operations, followed by
theorems settling the specification claims.

Conventions of the embedding:
* A Python dict `{player: finish}` (a ranking) is an association list
  `List (Player × Nat)` in insertion order with pairwise-distinct keys;
  `dict.items()` / `dict.values()` iteration order is the list order.
* Python floats are embedded as `ℚ` (the claims under study are about the
  algorithm's structure, not about rounding); the float literal `1e-9`
  is embedded as the exact rational `1 / 10^9`.
* The real player keys are nonempty strings (truthy in Python); the fake
  anchor player's key is the int `0` (falsy).  `Player.truthy` records this.
* The `while` loop of `plackett_luce` is embedded fuel-indexed:
  `plackett_luce_run rankings n s` performs at most `n` iterations,
  stopping as soon as the convergence statistic `gdiff` is `≤ tol`.
* `print` output is modelled by the `msgs` field of the loop state.
-/

namespace PLRanking

/-- A participant key.  `real n` stands for a real competitor's
(nonempty-string) key; `anchor` is the fake player keyed by the int `0`. -/
inductive Player where
  | anchor : Player
  | real : Nat → Player
deriving DecidableEq, Repr

/-- Python truthiness of a player key: the synthetic anchor's key is the
int `0` (falsy); real players' keys are nonempty strings (truthy). -/
def Player.truthy : Player → Bool
  | Player.anchor => false
  | Player.real _ => true

/-- A ranking (`dict` of player ↦ finish position), in insertion order. -/
abbrev Ranking := List (Player × Nat)

/-- The keys of a ranking (`ranking.keys()`). -/
def keys (r : Ranking) : List Player := r.map Prod.fst

/-- The values of a ranking (`ranking.values()`), with multiplicity. -/
def rvalues (r : Ranking) : List Nat := r.map Prod.snd

/-- Lookup `ranking[p]`: the recorded finish of `p` (0 if absent; the program only
evaluates it at present keys). -/
def lookupRank : Ranking → Player → Nat
  | [], _ => 0
  | x :: xs, p => if x.1 = p then x.2 else lookupRank xs p

/-! ## `plackett_luce` (pl_ranking.py lines 9-37) -/

/-- Embeds `sum(gammas[finisher] for finisher in ranking if ranking[finisher] >= place)`. -/
def gammaSumFrom (g : Player → ℚ) (r : Ranking) (place : Nat) : ℚ :=
  ((r.filter (fun x => decide (place ≤ x.2))).map (fun x => g x.1)).sum

/-- One summand of the denominator at a given `place` value:
`0 if player not in ranking or ranking[player] < place else 1 / gammaSumFrom`. -/
def denomTerm (g : Player → ℚ) (r : Ranking) (p : Player) (place : Nat) : ℚ :=
  if p ∉ keys r ∨ lookupRank r p < place then 0 else 1 / gammaSumFrom g r place

/-- A single ranking's contribution to `denoms[p]`: the inner
`sum(... for place in ranking.values())` of line 26 — note that the Python
iteration over `ranking.values()` visits each participant's finish value,
so a value shared by tied participants is visited once per participant. -/
def denomRanking (g : Player → ℚ) (r : Ranking) (p : Player) : ℚ :=
  ((rvalues r).map (fun place => denomTerm g r p place)).sum

/-- The `denoms[p]` of line 26: the sum of the per-ranking contributions. -/
def denom (g : Player → ℚ) (rankings : List Ranking) (p : Player) : ℚ :=
  (rankings.map (fun r => denomRanking g r p)).sum

/-- One ranking's contribution to the Counter `ws` (line 19): the number of
items `(name, finish)` of the ranking with `name = p` and `finish < len(ranking)`. -/
def wsRanking (r : Ranking) (p : Player) : Nat :=
  r.countP (fun x => decide (x.1 = p ∧ x.2 < r.length))

/-- The `ws[p]` counter (line 19): the Counter of players over all rankings' items with
`finish < len(ranking)`. -/
def ws (rankings : List Ranking) (p : Player) : Nat :=
  (rankings.map (fun r => wsRanking r p)).sum

/-- The `players` set (line 18): the set of keys over all rankings, as a
duplicate-free list. -/
def playersOf (rankings : List Ranking) : List Player :=
  (rankings.map keys).flatten.dedup

/-- Console output of the loop: the per-iteration progress line
`"\r%d gd=%.2e"` and the diagnostic `"Gamma difference increased, ..."`. -/
inductive Msg where
  | progress : Nat → ℚ → Msg
  | gammaIncreased : ℚ → ℚ → Msg
deriving DecidableEq, Repr

/-- The state of the `while` loop of `plackett_luce`. -/
structure PLState where
  gammas : Player → ℚ
  gdiff : ℚ
  pgdiff : ℚ
  iteration : Nat
  msgs : List Msg

/-- The convergence tolerance `1e-9` (embedded as the exact rational). -/
def tol : ℚ := 1 / 1000000000

/-- One iteration of the `while` loop (lines 26-35): compute `denoms` from
the current gammas, replace the gammas simultaneously by `ws[p] / denoms[p]`,
recompute `gdiff`, bump the iteration counter, print the progress line and,
when `gdiff` increased over the previous iteration's value, the diagnostic. -/
def plackett_luce_step (rankings : List Ranking) (s : PLState) : PLState :=
  let denoms : Player → ℚ := fun p => denom s.gammas rankings p
  let newGammas : Player → ℚ := fun p => (ws rankings p : ℚ) / denoms p
  let newGdiff : ℚ :=
    ((playersOf rankings).map (fun p => (newGammas p - s.gammas p) ^ 2)).sum
  { gammas := newGammas
    gdiff := newGdiff
    pgdiff := s.gdiff
    iteration := s.iteration + 1
    msgs := s.msgs ++ [Msg.progress (s.iteration + 1) newGdiff] ++
      (if s.gdiff < newGdiff then [Msg.gammaIncreased newGdiff s.gdiff] else []) }

/-- The loop state just before the first iteration (lines 20-24):
uniform gammas `1 / len(players)`, `gdiff = 10`, `pgdiff = 100`. -/
def plackett_luce_init (rankings : List Ranking) : PLState :=
  { gammas := fun _ => 1 / ((playersOf rankings).length : ℚ)
    gdiff := 10
    pgdiff := 100
    iteration := 0
    msgs := [] }

/-- The `while gdiff > 1e-9` loop (line 25), fuel-indexed: perform at most
`n` iterations, stopping as soon as `gdiff ≤ tol`. -/
def plackett_luce_run (rankings : List Ranking) : Nat → PLState → PLState
  | 0, s => s
  | n + 1, s =>
    if tol < s.gdiff then plackett_luce_run rankings n (plackett_luce_step rankings s)
    else s

/-! ## `normalize_ratings` (lines 39-41) and the post-processing of `main`
(lines 141-143) -/

/-- Embeds `normalize_ratings`: divide every value by the sum of the values. -/
def normalize_ratings (ratings : List (Player × ℚ)) : List (Player × ℚ) :=
  let c := (ratings.map (fun x => x.2)).sum
  ratings.map (fun x => (x.1, x.2 / c))

/-- Embeds `ratings.sort(key=lambda x: -x[1])`: stable sort by value, descending. -/
def sortRatings (ratings : List (Player × ℚ)) : List (Player × ℚ) :=
  ratings.mergeSort (fun a b => decide (b.2 ≤ a.2))

/-- Lines 142-143 of `main`: sort descending by value, truncate to the top
20, renormalize the truncated list. -/
def reported_ratings (ratings : List (Player × ℚ)) : List (Player × ℚ) :=
  normalize_ratings ((sortRatings ratings).take 20)

/-! ## `check_games` (lines 43-76)

`pc` maps a player to a pair of flags `[win, loss]`, both initially 1;
`pc[u][0] = 0` records evidence that `u` finished ahead of someone (a
win-class event), `pc[u][1] = 0` records a finish worse than rank 1
(a loss-class event).  Entries are created by
`pc.setdefault(user, [1, 1])[i] = 0`, i.e. inserted at the end of the
dict if absent and then one flag is cleared in place. -/

/-- The `pc` dict: an association list player ↦ (win-missing, loss-missing)
flags, in insertion order. -/
abbrev PC := List (Player × Nat × Nat)

/-- Embeds `pc.setdefault(u, [1, 1])[0] = 0`. -/
def clearWin : PC → Player → PC
  | [], u => [(u, 0, 1)]
  | x :: xs, u => if x.1 = u then (x.1, 0, x.2.2) :: xs else x :: clearWin xs u

/-- Embeds `pc.setdefault(u, [1, 1])[1] = 0`. -/
def clearLoss : PC → Player → PC
  | [], u => [(u, 1, 0)]
  | x :: xs, u => if x.1 = u then (x.1, x.2.1, 0) :: xs else x :: clearLoss xs u

/-- The `pc` dict lookup. -/
def pcLookup : PC → Player → Option (Nat × Nat)
  | [], _ => none
  | x :: xs, u => if x.1 = u then some x.2 else pcLookup xs u

/-- The body of the inner `for user, rank in game.items()` loop of
`check_games` (lines 50-59).  The running state is
`(pc, max_rank, max_user)`; `if max_user:` is Python truthiness, false
both for `None` and for a falsy key. -/
def gameStep (st : PC × Nat × Option Player) (ur : Player × Nat) :
    PC × Nat × Option Player :=
  let pc1 := if 1 < ur.2 then clearLoss st.1 ur.1 else st.1
  if st.2.1 < ur.2 then
    let pc2 := match st.2.2 with
      | some mu => if mu.truthy then clearWin pc1 mu else pc1
      | none => pc1
    (pc2, ur.2, some ur.1)
  else if ur.2 < st.2.1 then
    (clearWin pc1 ur.1, st.2.1, st.2.2)
  else
    (pc1, st.2.1, st.2.2)

/-- Process one game (lines 48-59): run the inner loop with
`max_rank = 0`, `max_user = None`. -/
def processGame (pc : PC) (game : Ranking) : PC :=
  (game.foldl gameStep (pc, 0, none)).1

/-- The `pc` dict after the outer `for game in games` loop (lines 46-59). -/
def buildPC (games : List Ranking) : PC :=
  games.foldl processGame []

/-- The body of the classification loop (lines 64-74): skip players with
both events, raise on players with neither, append the rest to `losers`
(no win-class event) or `winners` (no loss-class event). -/
def classifyStep (acc : List Player × List Player) (x : Player × Nat × Nat) :
    Except String (List Player × List Player) :=
  if x.2.1 = 0 ∧ x.2.2 = 0 then Except.ok acc
  else if x.2.1 ≠ 0 ∧ x.2.2 ≠ 0 then
    Except.error "Player with neither win or loss"
  else if x.2.1 ≠ 0 then Except.ok (acc.1, acc.2 ++ [x.1])
  else Except.ok (acc.1 ++ [x.1], acc.2)

/-- Embeds `check_games` (lines 43-76): build `pc`; when some flag is still set,
classify the flagged players into `(winners, losers)` (raising if a player
has both flags set); otherwise return `(None, None)`. -/
def check_games (games : List Ranking) :
    Except String (Option (List Player) × Option (List Player)) :=
  let pc := buildPC games
  let missing_wl := (pc.map (fun x => x.2.1 + x.2.2)).sum
  if 0 < missing_wl then
    match pc.foldlM classifyStep ([], []) with
    | Except.ok wl => Except.ok (some wl.1, some wl.2)
    | Except.error e => Except.error e
  else Except.ok (none, none)

/-! ## The augmentation step of `main` (lines 125-135) -/

/-- Lines 130-134: for each real player `p`, two synthetic two-player games
`{0: 1, p: 2}` and `{0: 2, p: 1}`. -/
def fake_games (players : List Player) : List Ranking :=
  players.flatMap (fun p =>
    [[(Player.anchor, 1), (p, 2)], [(Player.anchor, 2), (p, 1)]])

/-! ## Claim-side definitions (written from the words of the claims) -/

/-- Written from claim C1's words, inner sum: over each DISTINCT
finish-position value `place` appearing in `R`, `1 / (sum of gammas of
participants of R whose position is ≥ place)`, position values `p` did
not reach contributing 0. -/
def innerDistinct (g : Player → ℚ) (r : Ranking) (p : Player) : ℚ :=
  ((rvalues r).dedup.map (fun place =>
    if lookupRank r p < place then 0
    else 1 / ((r.filter (fun y => decide (place ≤ y.2))).map (fun y => g y.1)).sum)).sum

/-- Written from claim C1's words: the denominator as a sum over rankings
`R` containing `p` of the distinct-place inner sums. -/
def denomClaimDistinct (g : Player → ℚ) (rankings : List Ranking) (p : Player) : ℚ :=
  ((rankings.filter (fun r => decide (p ∈ keys r))).map (fun r => innerDistinct g r p)).sum

/-- The amended inner sum: as `innerDistinct`, but each finish-position
value of `R` is counted once per participant holding it (with
multiplicity), not once per distinct value. -/
def innerPerParticipant (g : Player → ℚ) (r : Ranking) (p : Player) : ℚ :=
  ((rvalues r).map (fun place =>
    if lookupRank r p < place then 0
    else 1 / ((r.filter (fun y => decide (place ≤ y.2))).map (fun y => g y.1)).sum)).sum

/-- The amended form of claim C1: sum over rankings containing `p` of the
per-participant inner sums. -/
def denomClaimPerParticipant (g : Player → ℚ) (rankings : List Ranking) (p : Player) : ℚ :=
  ((rankings.filter (fun r => decide (p ∈ keys r))).map
    (fun r => innerPerParticipant g r p)).sum

/-- Uniform gammas 1/3, used as a concrete iteration state. -/
def gThird : Player → ℚ := fun _ => 1 / 3

/-- A ranking with two participants tied at position 2. -/
def tieRanking : Ranking := [(Player.real 0, 1), (Player.real 1, 2), (Player.real 2, 2)]

/-! ## Claim C1 -/

/-- A ranking without `p` contributes 0 to `denoms[p]`. -/
theorem denomRanking_eq_zero (g : Player → ℚ) (r : Ranking) (p : Player)
    (h : p ∉ keys r) : denomRanking g r p = 0 := by
  apply List.sum_eq_zero
  intro x hx
  rcases List.mem_map.mp hx with ⟨place, _, rfl⟩
  simp [denomTerm, h]

/-- A ranking containing `p` contributes the per-participant inner sum. -/
theorem denomRanking_eq_of_mem (g : Player → ℚ) (r : Ranking) (p : Player)
    (h : p ∈ keys r) : denomRanking g r p = innerPerParticipant g r p := by
  unfold denomRanking innerPerParticipant
  refine congrArg List.sum (List.map_congr_left ?_)
  intro place _
  simp [denomTerm, gammaSumFrom, h]

/-- C1, counterexample: on a ranking where two participants are tied at
position 2, the denominator the code computes for the third participant
(one term per participant's finish value, `= 4` at uniform gammas 1/3)
differs from the claim's one-term-per-distinct-value denominator
(`= 5/2`). -/
theorem claim_C1_counterexample :
    denom gThird [tieRanking] (Player.real 2) ≠
      denomClaimDistinct gThird [tieRanking] (Player.real 2) := by
  have hL : denom gThird [tieRanking] (Player.real 2) = 4 := by
    norm_num [denom, denomRanking, denomTerm, gammaSumFrom, rvalues, keys,
      lookupRank, tieRanking, gThird, List.filter]
  have hdedup :
      (rvalues [(Player.real 0, 1), (Player.real 1, 2), (Player.real 2, 2)]).dedup
        = [1, 2] := by decide
  have hR : denomClaimDistinct gThird [tieRanking] (Player.real 2) = 5 / 2 := by
    norm_num [denomClaimDistinct, innerDistinct, hdedup, keys, lookupRank,
      tieRanking, gThird, List.filter]
  rw [hL, hR]
  norm_num

/-- C1 (amended): in every iteration, `denoms[p]` equals the sum, over
rankings `R` containing `p`, over each finish-position value of `R`
counted once per participant holding it (so a value shared by tied
participants contributes one term per tied participant, not one per
ranking), of `1 / (sum of gammas of participants of R whose position is
≥ place)`; values `p` did not reach contribute 0. -/
theorem claim_C1 (g : Player → ℚ) (rankings : List Ranking) (p : Player) :
    denom g rankings p = denomClaimPerParticipant g rankings p := by
  induction rankings with
  | nil => rfl
  | cons r rest ih =>
    have hL : denom g (r :: rest) p = denomRanking g r p + denom g rest p := by
      simp [denom]
    by_cases h : p ∈ keys r
    · have hR : denomClaimPerParticipant g (r :: rest) p =
          innerPerParticipant g r p + denomClaimPerParticipant g rest p := by
        simp [denomClaimPerParticipant, List.filter_cons, h]
      rw [hL, hR, denomRanking_eq_of_mem g r p h, ih]
    · have hR : denomClaimPerParticipant g (r :: rest) p =
          denomClaimPerParticipant g rest p := by
        simp [denomClaimPerParticipant, List.filter_cons, h]
      rw [hL, hR, denomRanking_eq_zero g r p h, ih, zero_add]

/-! ## Claim C2 -/

/-- C2: the fixed-point loop iterates exactly while the convergence
statistic exceeds the absolute threshold `tol = 1e-9` (it stops when
`gdiff ≤ tol` and recurses when `tol < gdiff`); each iteration's new
gammas are `ws[p] / denoms[p]` where the denominators are computed from
the previous iteration's gammas only; and `gdiff` is the sum over the
players of the squared differences between new and previous gammas. -/
theorem claim_C2 (rankings : List Ranking) (s : PLState) (n : Nat) :
    (s.gdiff ≤ tol → plackett_luce_run rankings n s = s) ∧
    (tol < s.gdiff →
      plackett_luce_run rankings (n + 1) s =
        plackett_luce_run rankings n (plackett_luce_step rankings s)) ∧
    ((plackett_luce_step rankings s).gammas =
      fun p => (ws rankings p : ℚ) / denom s.gammas rankings p) ∧
    ((plackett_luce_step rankings s).gdiff =
      ((playersOf rankings).map
        (fun p => ((plackett_luce_step rankings s).gammas p - s.gammas p) ^ 2)).sum) := by
  refine ⟨?_, ?_, rfl, rfl⟩
  · intro h
    cases n with
    | zero => rfl
    | succ m =>
      unfold plackett_luce_run
      rw [if_neg (not_lt.mpr h)]
  · intro h
    conv_lhs => rw [plackett_luce_run]
    rw [if_pos h]

/-- A one-game corpus: player 0 beats player 1. -/
def corpusAB : List Ranking := [[(Player.real 0, 1), (Player.real 1, 2)]]

/-- A loop state whose convergence statistic is already below threshold. -/
def sLow : PLState :=
  { gammas := fun _ => 1, gdiff := 0, pgdiff := 100, iteration := 0, msgs := [] }

/-- A loop state whose convergence statistic is above threshold. -/
def sHigh : PLState :=
  { gammas := fun _ => 1, gdiff := 1 / 100, pgdiff := 100, iteration := 0, msgs := [] }

/-- Witness for C2 at concrete inputs: the loop stops on a
below-threshold state and recurses on an above-threshold state. -/
theorem claim_C2_witness :
    plackett_luce_run corpusAB 5 sLow = sLow ∧
      plackett_luce_run corpusAB 1 sHigh =
        plackett_luce_run corpusAB 0 (plackett_luce_step corpusAB sHigh) := by
  constructor
  · exact (claim_C2 corpusAB sLow 5).1 (by norm_num [sLow, tol])
  · exact (claim_C2 corpusAB sHigh 0).2.1 (by norm_num [sHigh, tol])

/-! ## Claim C3 -/

/-- Written from claim C3's words: the number of rankings in which `p`'s
finish position is strictly less than the number of participants of that
ranking. -/
def specW (rankings : List Ranking) (p : Player) : Nat :=
  (rankings.filter (fun r => decide (p ∈ keys r ∧ lookupRank r p < r.length))).length

/-- Counting the ranking's items `(name, finish)` with `name = p` and
`finish < L` over distinct keys finds either one item or none. -/
theorem countP_pairs (r : Ranking) (p : Player) (L : Nat) (hnd : (keys r).Nodup) :
    r.countP (fun x => decide (x.1 = p ∧ x.2 < L)) =
      if p ∈ keys r ∧ lookupRank r p < L then 1 else 0 := by
  induction r with
  | nil => simp [keys, lookupRank]
  | cons x xs ih =>
    have hnd' : (keys xs).Nodup := (List.nodup_cons.mp hnd).2
    have hx : x.1 ∉ keys xs := (List.nodup_cons.mp hnd).1
    by_cases hp : x.1 = p
    · subst hp
      have hzero : xs.countP (fun y => decide (y.1 = x.1 ∧ y.2 < L)) = 0 := by
        rw [List.countP_eq_zero]
        intro y hy
        simp only [decide_eq_true_eq, not_and]
        intro he
        exact absurd (he ▸ List.mem_map_of_mem Prod.fst hy) hx
      by_cases hlt : x.2 < L
      · rw [List.countP_cons_of_pos _ _ (by simp [hlt]), hzero,
          if_pos ⟨by simp [keys], by simp [lookupRank, hlt]⟩]
      · rw [List.countP_cons_of_neg _ _ (by simp [hlt]), hzero, if_neg]
        rintro ⟨-, hl⟩
        rw [lookupRank, if_pos rfl] at hl
        exact hlt hl
    · rw [List.countP_cons_of_neg _ _ (by simp [hp]), ih hnd']
      have hmem : p ∈ keys (x :: xs) ↔ p ∈ keys xs := by
        simp only [keys, List.map_cons, List.mem_cons]
        constructor
        · rintro (h | h)
          · exact absurd h.symm hp
          · exact h
        · exact Or.inr
      have hlook : lookupRank (x :: xs) p = lookupRank xs p := by
        rw [lookupRank, if_neg hp]
      simp only [hmem, hlook]

/-- C3: for every corpus (of rankings with distinct keys, as Python dicts
have), the numerator `ws[p]` equals the number of rankings in which `p`'s
finish position is strictly less than the number of participants, and in
every iteration — from any loop state — the update uses exactly this fixed
numerator: the new gamma is `ws[p] / denom`. -/
theorem claim_C3 (rankings : List Ranking) (p : Player) (s : PLState)
    (h : ∀ r ∈ rankings, (keys r).Nodup) :
    ws rankings p = specW rankings p ∧
      (plackett_luce_step rankings s).gammas p =
        (ws rankings p : ℚ) / denom s.gammas rankings p := by
  refine ⟨?_, rfl⟩
  induction rankings with
  | nil => rfl
  | cons r rest ih =>
    have hr : (keys r).Nodup := h r (List.mem_cons_self r rest)
    have hrest : ∀ r' ∈ rest, (keys r').Nodup :=
      fun r' hr' => h r' (List.mem_cons_of_mem r hr')
    have hcount := countP_pairs r p r.length hr
    simp only [ws, specW, List.map_cons, List.sum_cons, List.filter_cons,
      decide_eq_true_eq] at ih ⊢
    by_cases hcond : p ∈ keys r ∧ lookupRank r p < r.length
    · rw [if_pos hcond] at hcount
      rw [if_pos hcond, List.length_cons]
      have hrec := ih hrest
      have hws : wsRanking r p = 1 := hcount
      omega
    · rw [if_neg hcond] at hcount
      rw [if_neg hcond]
      have hrec := ih hrest
      have hws : wsRanking r p = 0 := hcount
      omega

/-- Witness for C3 at a concrete corpus. -/
theorem claim_C3_witness :
    ws corpusAB (Player.real 0) = specW corpusAB (Player.real 0) ∧
      (plackett_luce_step corpusAB sLow).gammas (Player.real 0) =
        (ws corpusAB (Player.real 0) : ℚ) /
          denom sLow.gammas corpusAB (Player.real 0) :=
  claim_C3 corpusAB (Player.real 0) sLow (by decide)

/-! ## Claim C5 -/

/-- C5: when the convergence statistic increases across an iteration, the
step emits the `Gamma difference increased` diagnostic after the progress
line; this is not fatal — the loop still recurses whenever `gdiff` is
above the absolute threshold, and the numeric outcome of a step (gammas
and `gdiff`) does not depend on the messages at all. -/
theorem claim_C5 (rankings : List Ranking) (s : PLState) (n : Nat) (m' : List Msg) :
    (s.gdiff < (plackett_luce_step rankings s).gdiff →
      (plackett_luce_step rankings s).msgs =
        s.msgs ++ [Msg.progress (s.iteration + 1) (plackett_luce_step rankings s).gdiff,
          Msg.gammaIncreased (plackett_luce_step rankings s).gdiff s.gdiff]) ∧
    (tol < s.gdiff →
      plackett_luce_run rankings (n + 1) s =
        plackett_luce_run rankings n (plackett_luce_step rankings s)) ∧
    ((plackett_luce_step rankings { s with msgs := m' }).gammas =
        (plackett_luce_step rankings s).gammas ∧
      (plackett_luce_step rankings { s with msgs := m' }).gdiff =
        (plackett_luce_step rankings s).gdiff) := by
  refine ⟨?_, ?_, rfl, rfl⟩
  · intro h
    show s.msgs ++ [Msg.progress (s.iteration + 1) _] ++
        (if s.gdiff < (plackett_luce_step rankings s).gdiff then
          [Msg.gammaIncreased (plackett_luce_step rankings s).gdiff s.gdiff] else []) = _
    rw [if_pos h, List.append_assoc]
    rfl
  · intro h
    conv_lhs => rw [plackett_luce_run]
    rw [if_pos h]

/-- Witness for C5 at concrete inputs: on `corpusAB` from the state
`sHigh` the convergence statistic increases (from 1/100 to 2), the
diagnostic is emitted, and the loop still recurses. -/
theorem claim_C5_witness :
    ((plackett_luce_step corpusAB sHigh).msgs =
        sHigh.msgs ++
          [Msg.progress (sHigh.iteration + 1) (plackett_luce_step corpusAB sHigh).gdiff,
            Msg.gammaIncreased (plackett_luce_step corpusAB sHigh).gdiff sHigh.gdiff]) ∧
      plackett_luce_run corpusAB 1 sHigh =
        plackett_luce_run corpusAB 0 (plackett_luce_step corpusAB sHigh) := by
  have hplayers : playersOf [[(Player.real 0, 1), (Player.real 1, 2)]] =
      [Player.real 0, Player.real 1] := by decide
  have hws0 : ws [[(Player.real 0, 1), (Player.real 1, 2)]] (Player.real 0) = 1 := by
    decide
  have hws1 : ws [[(Player.real 0, 1), (Player.real 1, 2)]] (Player.real 1) = 0 := by
    decide
  have hlt : sHigh.gdiff < (plackett_luce_step corpusAB sHigh).gdiff := by
    norm_num [plackett_luce_step, hplayers, hws0, hws1, denom, denomRanking,
      denomTerm, gammaSumFrom, rvalues, keys, lookupRank, corpusAB, sHigh,
      List.filter]
  exact ⟨(claim_C5 corpusAB sHigh 0 []).1 hlt,
    (claim_C5 corpusAB sHigh 0 []).2.1 (by norm_num [sHigh, tol])⟩

/-! ## Claim C9 -/

/-- Dividing each value of a pair list by a constant divides the sum. -/
theorem sum_map_div (l : List (Player × ℚ)) (c : ℚ) :
    (l.map (fun x => x.2 / c)).sum = (l.map (fun x => x.2)).sum / c := by
  induction l with
  | nil => simp
  | cons x xs ih => simp [ih, add_div]

/-- C9: on a nonempty list of pairs with positive values,
`normalize_ratings` keeps the competitors in order and makes the values
sum to 1; and the post-processor renormalizes exactly the top-20
truncation of the descending sort (not the full population), so the
reported values also sum to 1. -/
theorem claim_C9 (ratings : List (Player × ℚ)) (hne : ratings ≠ [])
    (hpos : ∀ x ∈ ratings, 0 < x.2) :
    (normalize_ratings ratings).map Prod.fst = ratings.map Prod.fst ∧
      ((normalize_ratings ratings).map (fun x => x.2)).sum = 1 ∧
      reported_ratings ratings = normalize_ratings ((sortRatings ratings).take 20) ∧
      ((reported_ratings ratings).map (fun x => x.2)).sum = 1 := by
  have key : ∀ l : List (Player × ℚ), l ≠ [] → (∀ x ∈ l, 0 < x.2) →
      (normalize_ratings l).map Prod.fst = l.map Prod.fst ∧
        ((normalize_ratings l).map (fun x => x.2)).sum = 1 := by
    intro l hlne hlpos
    have hsumpos : 0 < (l.map (fun x => x.2)).sum := by
      apply List.sum_pos
      · intro y hy
        rcases List.mem_map.mp hy with ⟨x, hx, rfl⟩
        exact hlpos x hx
      · simpa using hlne
    constructor
    · simp only [normalize_ratings, List.map_map]
      apply List.map_congr_left
      intro x _
      rfl
    · simp only [normalize_ratings, List.map_map]
      have : (l.map (fun x => ((x.1, x.2 / (l.map (fun y => y.2)).sum) :
          Player × ℚ))).map (fun x => x.2) = l.map (fun x => x.2 / (l.map (fun y => y.2)).sum) := by
        simp [List.map_map]
      calc (l.map ((fun x => x.2) ∘ fun x =>
              ((x.1, x.2 / (l.map (fun y => y.2)).sum) : Player × ℚ))).sum
          = (l.map (fun x => x.2 / (l.map (fun y => y.2)).sum)).sum := by
            apply congrArg List.sum
            apply List.map_congr_left
            intro x _
            rfl
        _ = (l.map (fun x => x.2)).sum / (l.map (fun y => y.2)).sum :=
            sum_map_div l _
        _ = 1 := div_self (ne_of_gt hsumpos)
  have hmain := key ratings hne hpos
  have htake_ne : (sortRatings ratings).take 20 ≠ [] := by
    apply List.ne_nil_of_length_pos
    rw [List.length_take]
    have h20 : (sortRatings ratings).length = ratings.length := by
      simp [sortRatings, List.length_mergeSort]
    rw [h20]
    exact lt_min (by norm_num) (List.length_pos.mpr hne)
  have htake_pos : ∀ x ∈ (sortRatings ratings).take 20, 0 < x.2 := by
    intro x hx
    exact hpos x (List.mem_mergeSort.mp (List.mem_of_mem_take hx))
  have hrep := key ((sortRatings ratings).take 20) htake_ne htake_pos
  exact ⟨hmain.1, hmain.2, rfl, hrep.2⟩

/-- A concrete rating list with positive values. -/
def ratingsEx : List (Player × ℚ) := [(Player.real 0, 1 / 2), (Player.real 1, 1 / 4)]

/-- Witness for C9 at a concrete rating list. -/
theorem claim_C9_witness :
    (normalize_ratings ratingsEx).map Prod.fst = ratingsEx.map Prod.fst ∧
      ((normalize_ratings ratingsEx).map (fun x => x.2)).sum = 1 ∧
      reported_ratings ratingsEx =
        normalize_ratings ((sortRatings ratingsEx).take 20) ∧
      ((reported_ratings ratingsEx).map (fun x => x.2)).sum = 1 := by
  apply claim_C9
  · simp [ratingsEx]
  · intro x hx
    rcases List.mem_cons.mp hx with h | h
    · rw [h]; norm_num
    · rcases List.mem_cons.mp h with h' | h'
      · rw [h']; norm_num
      · simp at h'

/-! ## Claim C4 -/

/-- Holds when `p` finishes strictly better than some rival within `r` (a win-class
event, glossary sense). -/
def winEvtIn (r : Ranking) (p : Player) : Prop :=
  ∃ x ∈ r, x.1 = p ∧ ∃ y ∈ r, x.2 < y.2

/-- Holds when `p` finishes strictly worse than some rival within `r` (a loss-class
event, glossary sense). -/
def lossEvtIn (r : Ranking) (p : Player) : Prop :=
  ∃ x ∈ r, x.1 = p ∧ ∃ y ∈ r, y.2 < x.2

/-- Holds when `p` has a win-class event somewhere in the corpus. -/
def hasWinEvt (games : List Ranking) (p : Player) : Prop :=
  ∃ r ∈ games, winEvtIn r p

/-- Holds when `p` has a loss-class event somewhere in the corpus. -/
def hasLossEvt (games : List Ranking) (p : Player) : Prop :=
  ∃ r ∈ games, lossEvtIn r p

/-- Holds when `a` finishes strictly better than `b` within `r`. -/
def beatsIn (r : Ranking) (a b : Player) : Prop :=
  ∃ x ∈ r, x.1 = a ∧ ∃ y ∈ r, y.1 = b ∧ x.2 < y.2

instance (r : Ranking) (p : Player) : Decidable (winEvtIn r p) := by
  unfold winEvtIn; infer_instance

instance (r : Ranking) (p : Player) : Decidable (lossEvtIn r p) := by
  unfold lossEvtIn; infer_instance

instance (r : Ranking) (a b : Player) : Decidable (beatsIn r a b) := by
  unfold beatsIn; infer_instance

/-- On a two-participant ranking with finishes 1 and 2, `c` beats `d`
exactly when `c` holds the first entry and `d` the second. -/
theorem beatsIn_pair {a b c d : Player} :
    beatsIn [(a, 1), (b, 2)] c d ↔ c = a ∧ d = b := by
  constructor
  · rintro ⟨x, hx, hxc, y, hy, hyd, hlt⟩
    rcases List.mem_cons.mp hx with h | h
    · rcases List.mem_cons.mp hy with h' | h'
      · rw [h, h'] at hlt; norm_num at hlt
      · rcases List.mem_cons.mp h' with h'' | h''
        · subst h; subst h''
          exact ⟨hxc.symm ▸ rfl, hyd.symm ▸ rfl⟩
        · simp at h''
    · rcases List.mem_cons.mp h with h' | h'
      · subst h'
        rcases List.mem_cons.mp hy with h'' | h''
        · rw [h''] at hlt; norm_num at hlt
        · rcases List.mem_cons.mp h'' with h3 | h3
          · rw [h3] at hlt; norm_num at hlt
          · simp at h3
      · simp at h'
  · rintro ⟨rfl, rfl⟩
    exact ⟨(c, 1), by simp, rfl, (d, 2), by simp, rfl, by norm_num⟩

/-- The two fake-game shapes, as seen by `beatsIn`. -/
theorem beatsIn_pair' {a b c d : Player} :
    beatsIn [(a, 2), (b, 1)] c d ↔ c = b ∧ d = a := by
  constructor
  · rintro ⟨x, hx, hxc, y, hy, hyd, hlt⟩
    rcases List.mem_cons.mp hx with h | h
    · rcases List.mem_cons.mp hy with h' | h'
      · rw [h, h'] at hlt; norm_num at hlt
      · rcases List.mem_cons.mp h' with h'' | h''
        · rw [h, h''] at hlt; norm_num at hlt
        · simp at h''
    · rcases List.mem_cons.mp h with h' | h'
      · subst h'
        rcases List.mem_cons.mp hy with h'' | h''
        · subst h''
          exact ⟨hxc.symm ▸ rfl, hyd.symm ▸ rfl⟩
        · rcases List.mem_cons.mp h'' with h3 | h3
          · rw [h3] at hlt; norm_num at hlt
          · simp at h3
      · simp at h'
  · rintro ⟨rfl, rfl⟩
    exact ⟨(c, 1), by simp, rfl, (d, 2), by simp, rfl, by norm_num⟩

/-- Over the fake games, the number of rankings in which the anchor beats
`p`, and in which `p` beats the anchor, both equal the number of
occurrences of `p` in the player list. -/
theorem countP_beats_fake (players : List Player) (p : Player)
    (hp : p ≠ Player.anchor) :
    (fake_games players).countP (fun r => decide (beatsIn r Player.anchor p)) =
        players.count p ∧
      (fake_games players).countP (fun r => decide (beatsIn r p Player.anchor)) =
        players.count p := by
  induction players with
  | nil => simp [fake_games]
  | cons q rest ih =>
    have hcons : fake_games (q :: rest) =
        [(Player.anchor, 1), (q, 2)] :: [(Player.anchor, 2), (q, 1)] ::
          fake_games rest := by
      simp [fake_games]
    have hcount : (q :: rest).count p = (if p = q then 1 else 0) + rest.count p := by
      rcases eq_or_ne p q with h | h
      · subst h; rw [List.count_cons_self, if_pos rfl]; omega
      · rw [List.count_cons_of_ne h, if_neg h]; omega
    constructor
    · rw [hcons, List.countP_cons, List.countP_cons, ih.1, hcount]
      have h1 : decide (beatsIn [(Player.anchor, 1), (q, 2)] Player.anchor p) =
          decide (p = q) := by
        apply decide_eq_decide.mpr
        rw [beatsIn_pair]
        exact ⟨fun h => h.2, fun h => ⟨rfl, h⟩⟩
      have h2 : decide (beatsIn [(Player.anchor, 2), (q, 1)] Player.anchor p) =
          false := by
        rw [decide_eq_false_iff_not, beatsIn_pair']
        rintro ⟨-, h⟩
        exact hp h
      rw [h1, h2]
      rcases eq_or_ne p q with h | h <;> simp [h] <;> omega
    · rw [hcons, List.countP_cons, List.countP_cons, ih.2, hcount]
      have h1 : decide (beatsIn [(Player.anchor, 1), (q, 2)] p Player.anchor) =
          false := by
        rw [decide_eq_false_iff_not, beatsIn_pair]
        rintro ⟨h, -⟩
        exact hp h
      have h2 : decide (beatsIn [(Player.anchor, 2), (q, 1)] p Player.anchor) =
          decide (p = q) := by
        apply decide_eq_decide.mpr
        rw [beatsIn_pair']
        exact ⟨fun h => h.1, fun h => ⟨h, rfl⟩⟩
      rw [h1, h2]
      rcases eq_or_ne p q with h | h <;> simp [h] <;> omega

/-- The augmentation produces two synthetic rankings per listed player. -/
theorem fake_games_length (players : List Player) :
    (fake_games players).length = 2 * players.length := by
  induction players with
  | nil => rfl
  | cons q rest ih =>
    have hcons : fake_games (q :: rest) =
        [(Player.anchor, 1), (q, 2)] :: [(Player.anchor, 2), (q, 1)] ::
          fake_games rest := by
      simp [fake_games]
    rw [hcons, List.length_cons, List.length_cons, ih, List.length_cons]
    omega

/-- Each of the two synthetic ranking shapes for `p` occurs in the fake
games once per occurrence of `p` in the player list. -/
theorem count_fake (players : List Player) (p : Player) :
    (fake_games players).count [(Player.anchor, 1), (p, 2)] = players.count p ∧
      (fake_games players).count [(Player.anchor, 2), (p, 1)] = players.count p := by
  induction players with
  | nil => simp [fake_games]
  | cons q rest ih =>
    have hcons : fake_games (q :: rest) =
        [(Player.anchor, 1), (q, 2)] :: [(Player.anchor, 2), (q, 1)] ::
          fake_games rest := by
      simp [fake_games]
    rw [hcons]
    constructor
    · rw [List.count_cons, List.count_cons, ih.1, List.count_cons]
      rcases eq_or_ne q p with h | h
      · subst h; simp
      · simp [h, Ne.symm h]
    · rw [List.count_cons, List.count_cons, ih.2, List.count_cons]
      rcases eq_or_ne q p with h | h
      · subst h; simp
      · simp [h, Ne.symm h]

/-- Both synthetic rankings for `p` are appended to the corpus. -/
theorem mem_fake_games {players : List Player} {p : Player} (hmem : p ∈ players) :
    [(Player.anchor, 1), (p, 2)] ∈ fake_games players ∧
      [(Player.anchor, 2), (p, 1)] ∈ fake_games players :=
  ⟨List.mem_flatMap.mpr ⟨p, hmem, by simp⟩,
    List.mem_flatMap.mpr ⟨p, hmem, by simp⟩⟩

/-- If the anchor beats or loses within `r`, the anchor is a key of `r`. -/
theorem anchor_key_of_beats {r : Ranking} {p : Player} :
    (beatsIn r Player.anchor p → Player.anchor ∈ keys r) ∧
      (beatsIn r p Player.anchor → Player.anchor ∈ keys r) := by
  constructor
  · rintro ⟨x, hx, hxa, -⟩
    exact List.mem_map.mpr ⟨x, hx, hxa⟩
  · rintro ⟨x, hx, hxp, y, hy, hya, -⟩
    exact List.mem_map.mpr ⟨y, hy, hya⟩

/-- C4: the augmentation appends exactly two synthetic two-participant
rankings per real competitor `p` — `{0: 1, p: 2}` (anchor first) and
`{0: 2, p: 1}` (competitor first), each occurring exactly once — so in the
augmented corpus the anchor beats `p` in exactly one ranking and loses to
`p` in exactly one ranking, and `p` is guaranteed a win-class and a
loss-class event. -/
theorem claim_C4 (games : List Ranking) (players : List Player) (p : Player)
    (hnd : players.Nodup) (hmem : p ∈ players) (hanch : Player.anchor ∉ players)
    (hgames : ∀ r ∈ games, Player.anchor ∉ keys r) :
    (fake_games players).length = 2 * players.length ∧
      (fake_games players).count [(Player.anchor, 1), (p, 2)] = 1 ∧
      (fake_games players).count [(Player.anchor, 2), (p, 1)] = 1 ∧
      (games ++ fake_games players).countP
          (fun r => decide (beatsIn r Player.anchor p)) = 1 ∧
      (games ++ fake_games players).countP
          (fun r => decide (beatsIn r p Player.anchor)) = 1 ∧
      hasWinEvt (games ++ fake_games players) p ∧
      hasLossEvt (games ++ fake_games players) p := by
  have hp : p ≠ Player.anchor := fun h => hanch (h ▸ hmem)
  have hcount1 : players.count p = 1 := List.count_eq_one_of_mem hnd hmem
  have hzero1 : games.countP (fun r => decide (beatsIn r Player.anchor p)) = 0 := by
    rw [List.countP_eq_zero]
    intro r hr
    simp only [decide_eq_true_eq]
    exact fun hb => hgames r hr (anchor_key_of_beats.1 hb)
  have hzero2 : games.countP (fun r => decide (beatsIn r p Player.anchor)) = 0 := by
    rw [List.countP_eq_zero]
    intro r hr
    simp only [decide_eq_true_eq]
    exact fun hb => hgames r hr (anchor_key_of_beats.2 hb)
  refine ⟨fake_games_length players, (count_fake players p).1.trans hcount1,
    (count_fake players p).2.trans hcount1, ?_, ?_, ?_, ?_⟩
  · rw [List.countP_append, hzero1, (countP_beats_fake players p hp).1, hcount1]
  · rw [List.countP_append, hzero2, (countP_beats_fake players p hp).2, hcount1]
  · exact ⟨[(Player.anchor, 2), (p, 1)],
      List.mem_append_right games (mem_fake_games hmem).2,
      (p, 1), by simp, rfl, (Player.anchor, 2), by simp, by norm_num⟩
  · exact ⟨[(Player.anchor, 1), (p, 2)],
      List.mem_append_right games (mem_fake_games hmem).1,
      (p, 2), by simp, rfl, (Player.anchor, 1), by simp, by norm_num⟩

/-- Witness for C4 at a concrete corpus and player list. -/
theorem claim_C4_witness :
    (fake_games [Player.real 0, Player.real 1]).length =
        2 * [Player.real 0, Player.real 1].length ∧
      (fake_games [Player.real 0, Player.real 1]).count
          [(Player.anchor, 1), (Player.real 0, 2)] = 1 ∧
      (fake_games [Player.real 0, Player.real 1]).count
          [(Player.anchor, 2), (Player.real 0, 1)] = 1 ∧
      (corpusAB ++ fake_games [Player.real 0, Player.real 1]).countP
          (fun r => decide (beatsIn r Player.anchor (Player.real 0))) = 1 ∧
      (corpusAB ++ fake_games [Player.real 0, Player.real 1]).countP
          (fun r => decide (beatsIn r (Player.real 0) Player.anchor)) = 1 ∧
      hasWinEvt (corpusAB ++ fake_games [Player.real 0, Player.real 1])
        (Player.real 0) ∧
      hasLossEvt (corpusAB ++ fake_games [Player.real 0, Player.real 1])
        (Player.real 0) :=
  claim_C4 corpusAB [Player.real 0, Player.real 1] (Player.real 0)
    (by decide) (by decide) (by decide) (by decide)

/-! ## Claim C6 -/

/-- Computes `p`'s denominator contribution from its own fake game `{0:1, p:2}`. -/
theorem denomRanking_fake1 (g : Player → ℚ) (p : Player) (hp : p ≠ Player.anchor) :
    denomRanking g [(Player.anchor, 1), (p, 2)] p =
      1 / (g Player.anchor + g p) + 1 / g p := by
  simp [denomRanking, denomTerm, gammaSumFrom, rvalues, keys, lookupRank,
    Ne.symm hp, List.filter]

/-- Computes `p`'s denominator contribution from its own fake game `{0:2, p:1}`. -/
theorem denomRanking_fake2 (g : Player → ℚ) (p : Player) (hp : p ≠ Player.anchor) :
    denomRanking g [(Player.anchor, 2), (p, 1)] p =
      1 / (g Player.anchor + g p) := by
  simp [denomRanking, denomTerm, gammaSumFrom, rvalues, keys, lookupRank,
    Ne.symm hp, List.filter]

/-- Over the purely synthetic corpus, `p`'s denominator is its own two
fake games' contribution, once per occurrence of `p` in the player list. -/
theorem denom_fake (g : Player → ℚ) (players : List Player) (p : Player)
    (hp : p ≠ Player.anchor) :
    denom g (fake_games players) p =
      (players.count p : ℚ) * (2 / (g Player.anchor + g p) + 1 / g p) := by
  induction players with
  | nil => simp [fake_games, denom]
  | cons q rest ih =>
    have hcons : fake_games (q :: rest) =
        [(Player.anchor, 1), (q, 2)] :: [(Player.anchor, 2), (q, 1)] ::
          fake_games rest := by
      simp [fake_games]
    have hsplit : ∀ (r1 r2 : Ranking) (rs : List Ranking),
        denom g (r1 :: r2 :: rs) p =
          denomRanking g r1 p + denomRanking g r2 p + denom g rs p := by
      intro r1 r2 rs
      simp [denom]
      ring
    rw [hcons, hsplit]
    rcases eq_or_ne q p with h | h
    · subst h
      rw [denomRanking_fake1 g q hp, denomRanking_fake2 g q hp, ih,
        List.count_cons_self]
      push_cast
      ring
    · have hnk : p ∉ keys [(Player.anchor, 1), (q, 2)] := by
        simp [keys]
        exact ⟨hp, Ne.symm h⟩
      have hnk' : p ∉ keys [(Player.anchor, 2), (q, 1)] := by
        simp [keys]
        exact ⟨hp, Ne.symm h⟩
      rw [denomRanking_eq_zero g _ p hnk, denomRanking_eq_zero g _ p hnk', ih,
        List.count_cons_of_ne (Ne.symm h)]
      ring

/-- Over the purely synthetic corpus, `p`'s numerator `ws[p]` is one win
per occurrence of `p` in the player list. -/
theorem ws_fake (players : List Player) (p : Player) (hp : p ≠ Player.anchor) :
    ws (fake_games players) p = players.count p := by
  induction players with
  | nil => simp [fake_games, ws]
  | cons q rest ih =>
    have hcons : fake_games (q :: rest) =
        [(Player.anchor, 1), (q, 2)] :: [(Player.anchor, 2), (q, 1)] ::
          fake_games rest := by
      simp [fake_games]
    have hsplit : ∀ (r1 r2 : Ranking) (rs : List Ranking),
        ws (r1 :: r2 :: rs) p = wsRanking r1 p + wsRanking r2 p + ws rs p := by
      intro r1 r2 rs
      simp [ws]
      ring
    rw [hcons, hsplit, ih]
    have h1 : wsRanking [(Player.anchor, 1), (q, 2)] p = 0 := by
      simp [wsRanking, List.countP_cons, Ne.symm hp]
    rcases eq_or_ne q p with h | h
    · subst h
      have h2 : wsRanking [(Player.anchor, 2), (q, 1)] q = 1 := by
        simp [wsRanking, List.countP_cons, Ne.symm hp]
      rw [h1, h2, List.count_cons_self]
      omega
    · have h2 : wsRanking [(Player.anchor, 2), (q, 1)] p = 0 := by
        simp [wsRanking, List.countP_cons, Ne.symm hp, h]
      rw [h1, h2, List.count_cons_of_ne (Ne.symm h)]
      omega

/-- One MM step on the purely synthetic corpus treats two real players
with equal occurrence counts and equal current gammas identically. -/
theorem step_symm_fake (players : List Player) (s : PLState) (p q : Player)
    (hp : p ≠ Player.anchor) (hq : q ≠ Player.anchor)
    (hg : s.gammas p = s.gammas q) (hc : players.count p = players.count q) :
    (plackett_luce_step (fake_games players) s).gammas p =
      (plackett_luce_step (fake_games players) s).gammas q := by
  show (ws (fake_games players) p : ℚ) / denom s.gammas (fake_games players) p =
    (ws (fake_games players) q : ℚ) / denom s.gammas (fake_games players) q
  rw [ws_fake players p hp, ws_fake players q hq, denom_fake s.gammas players p hp,
    denom_fake s.gammas players q hq, hg, hc]

/-- Symmetry is preserved by any number of loop iterations. -/
theorem run_symm_fake (players : List Player) (p q : Player)
    (hp : p ≠ Player.anchor) (hq : q ≠ Player.anchor)
    (hc : players.count p = players.count q) :
    ∀ (n : Nat) (s : PLState), s.gammas p = s.gammas q →
      (plackett_luce_run (fake_games players) n s).gammas p =
        (plackett_luce_run (fake_games players) n s).gammas q := by
  intro n
  induction n with
  | zero => exact fun s hg => hg
  | succ m ih =>
    intro s hg
    by_cases hb : tol < s.gdiff
    · have hrw : plackett_luce_run (fake_games players) (m + 1) s =
          plackett_luce_run (fake_games players) m
            (plackett_luce_step (fake_games players) s) := by
        conv_lhs => rw [plackett_luce_run]
        rw [if_pos hb]
      rw [hrw]
      exact ih _ (step_symm_fake players s p q hp hq hg hc)
    · have hrw : plackett_luce_run (fake_games players) (m + 1) s = s := by
        conv_lhs => rw [plackett_luce_run]
        rw [if_neg hb]
      rw [hrw]
      exact hg

/-- C6: on a corpus consisting solely of the Augmenter's synthetic
rankings around a (duplicate-free, anchor-free) list of real competitors,
the estimator — started from its uniform initialization and run for any
number of iterations — assigns any two of the real competitors equal
strength values. -/
theorem claim_C6 (players : List Player) (n : Nat) (p q : Player)
    (hnd : players.Nodup) (hp : p ∈ players) (hq : q ∈ players)
    (hanch : Player.anchor ∉ players) :
    (plackett_luce_run (fake_games players) n
        (plackett_luce_init (fake_games players))).gammas p =
      (plackett_luce_run (fake_games players) n
        (plackett_luce_init (fake_games players))).gammas q := by
  apply run_symm_fake players p q
    (fun h => hanch (h ▸ hp)) (fun h => hanch (h ▸ hq))
  · rw [List.count_eq_one_of_mem hnd hp, List.count_eq_one_of_mem hnd hq]
  · rfl

/-- Witness for C6: two real competitors, three iterations. -/
theorem claim_C6_witness :
    (plackett_luce_run (fake_games [Player.real 0, Player.real 1]) 3
        (plackett_luce_init (fake_games [Player.real 0, Player.real 1]))).gammas
        (Player.real 0) =
      (plackett_luce_run (fake_games [Player.real 0, Player.real 1]) 3
        (plackett_luce_init (fake_games [Player.real 0, Player.real 1]))).gammas
        (Player.real 1) :=
  claim_C6 [Player.real 0, Player.real 1] 3 (Player.real 0) (Player.real 1)
    (by decide) (by decide) (by decide) (by decide)

/-! ## Claim C10 -/

/-- The keys of the `pc` dict. -/
def pcKeys (pc : PC) : List Player := pc.map Prod.fst

/-- The `pc` invariant: every entry has a cleared flag, and the keys are
distinct (it is a dict). -/
def pcGood (pc : PC) : Prop :=
  (∀ x ∈ pc, x.2.1 = 0 ∨ x.2.2 = 0) ∧ (pcKeys pc).Nodup

/-- The op `clearWin` leaves the keys unchanged or appends the new key. -/
theorem clearWin_keys (pc : PC) (u : Player) :
    pcKeys (clearWin pc u) =
      if u ∈ pcKeys pc then pcKeys pc else pcKeys pc ++ [u] := by
  induction pc with
  | nil => simp [clearWin, pcKeys]
  | cons x xs ih =>
    rw [clearWin]
    rcases eq_or_ne x.1 u with h | h
    · rw [if_pos h]
      have : u ∈ pcKeys (x :: xs) := by simp [pcKeys, h.symm]
      rw [if_pos this]
      simp [pcKeys]
    · rw [if_neg h]
      have hk : pcKeys (x :: clearWin xs u) = x.1 :: pcKeys (clearWin xs u) := by
        simp [pcKeys]
      have hk' : pcKeys (x :: xs) = x.1 :: pcKeys xs := by simp [pcKeys]
      rw [hk, ih, hk']
      by_cases hm : u ∈ pcKeys xs
      · rw [if_pos hm, if_pos (List.mem_cons_of_mem _ hm)]
      · rw [if_neg hm, if_neg (by
          intro hc
          rcases List.mem_cons.mp hc with hc' | hc'
          · exact h hc'.symm
          · exact hm hc')]
        simp

/-- The op `clearLoss` leaves the keys unchanged or appends the new key. -/
theorem clearLoss_keys (pc : PC) (u : Player) :
    pcKeys (clearLoss pc u) =
      if u ∈ pcKeys pc then pcKeys pc else pcKeys pc ++ [u] := by
  induction pc with
  | nil => simp [clearLoss, pcKeys]
  | cons x xs ih =>
    rw [clearLoss]
    rcases eq_or_ne x.1 u with h | h
    · rw [if_pos h]
      have : u ∈ pcKeys (x :: xs) := by simp [pcKeys, h.symm]
      rw [if_pos this]
      simp [pcKeys]
    · rw [if_neg h]
      have hk : pcKeys (x :: clearLoss xs u) = x.1 :: pcKeys (clearLoss xs u) := by
        simp [pcKeys]
      have hk' : pcKeys (x :: xs) = x.1 :: pcKeys xs := by simp [pcKeys]
      rw [hk, ih, hk']
      by_cases hm : u ∈ pcKeys xs
      · rw [if_pos hm, if_pos (List.mem_cons_of_mem _ hm)]
      · rw [if_neg hm, if_neg (by
          intro hc
          rcases List.mem_cons.mp hc with hc' | hc'
          · exact h hc'.symm
          · exact hm hc')]
        simp

/-- Appending a fresh key keeps the keys distinct. -/
theorem nodup_append_singleton {l : List Player} {u : Player}
    (h : l.Nodup) (hu : u ∉ l) : (l ++ [u]).Nodup := by
  refine List.Nodup.append h (List.nodup_singleton u) ?_
  intro a ha hau
  rcases List.mem_singleton.mp hau with rfl
  exact hu ha

/-- The op `clearWin` preserves the cleared-flag property of the entries. -/
theorem clearWin_flags : ∀ (pc : PC) (u : Player),
    (∀ x ∈ pc, x.2.1 = 0 ∨ x.2.2 = 0) →
      ∀ x ∈ clearWin pc u, x.2.1 = 0 ∨ x.2.2 = 0 := by
  intro pc
  induction pc with
  | nil =>
    intro u _ x hx
    rcases List.mem_singleton.mp hx with rfl
    left; rfl
  | cons y ys ih =>
    intro u hinv x hx
    rw [clearWin] at hx
    rcases eq_or_ne y.1 u with h | h
    · rw [if_pos h] at hx
      rcases List.mem_cons.mp hx with rfl | hx'
      · left; rfl
      · exact hinv x (List.mem_cons_of_mem y hx')
    · rw [if_neg h] at hx
      rcases List.mem_cons.mp hx with rfl | hx'
      · exact hinv x (List.mem_cons_self x ys)
      · exact ih u (fun z hz => hinv z (List.mem_cons_of_mem y hz)) x hx'

/-- The op `clearLoss` preserves the cleared-flag property of the entries. -/
theorem clearLoss_flags : ∀ (pc : PC) (u : Player),
    (∀ x ∈ pc, x.2.1 = 0 ∨ x.2.2 = 0) →
      ∀ x ∈ clearLoss pc u, x.2.1 = 0 ∨ x.2.2 = 0 := by
  intro pc
  induction pc with
  | nil =>
    intro u _ x hx
    rcases List.mem_singleton.mp hx with rfl
    right; rfl
  | cons y ys ih =>
    intro u hinv x hx
    rw [clearLoss] at hx
    rcases eq_or_ne y.1 u with h | h
    · rw [if_pos h] at hx
      rcases List.mem_cons.mp hx with rfl | hx'
      · right; rfl
      · exact hinv x (List.mem_cons_of_mem y hx')
    · rw [if_neg h] at hx
      rcases List.mem_cons.mp hx with rfl | hx'
      · exact hinv x (List.mem_cons_self x ys)
      · exact ih u (fun z hz => hinv z (List.mem_cons_of_mem y hz)) x hx'

/-- The op `clearWin` preserves the `pc` invariant. -/
theorem clearWin_good {pc : PC} (u : Player) (h : pcGood pc) :
    pcGood (clearWin pc u) := by
  refine ⟨clearWin_flags pc u h.1, ?_⟩
  rw [clearWin_keys]
  by_cases hm : u ∈ pcKeys pc
  · rw [if_pos hm]; exact h.2
  · rw [if_neg hm]; exact nodup_append_singleton h.2 hm

/-- The op `clearLoss` preserves the `pc` invariant. -/
theorem clearLoss_good {pc : PC} (u : Player) (h : pcGood pc) :
    pcGood (clearLoss pc u) := by
  refine ⟨clearLoss_flags pc u h.1, ?_⟩
  rw [clearLoss_keys]
  by_cases hm : u ∈ pcKeys pc
  · rw [if_pos hm]; exact h.2
  · rw [if_neg hm]; exact nodup_append_singleton h.2 hm

/-- One inner-loop step preserves the `pc` invariant. -/
theorem gameStep_good (st : PC × Nat × Option Player) (ur : Player × Nat)
    (h : pcGood st.1) : pcGood (gameStep st ur).1 := by
  obtain ⟨pc, mr, mu⟩ := st
  obtain ⟨u, rk⟩ := ur
  have hcl : pcGood (if 1 < rk then clearLoss pc u else pc) := by
    split
    · exact clearLoss_good u h
    · exact h
  rcases mu with _ | m
  · simp only [gameStep]
    split
    · exact hcl
    · split
      · exact clearWin_good u hcl
      · exact hcl
  · simp only [gameStep]
    split
    · split
      · exact clearWin_good m hcl
      · exact hcl
    · split
      · exact clearWin_good u hcl
      · exact hcl

/-- The inner loop preserves the `pc` invariant. -/
theorem foldl_gameStep_good (game : Ranking) :
    ∀ st : PC × Nat × Option Player, pcGood st.1 →
      pcGood (game.foldl gameStep st).1 := by
  induction game with
  | nil => exact fun st h => h
  | cons ur rest ih =>
    intro st h
    rw [List.foldl_cons]
    exact ih (gameStep st ur) (gameStep_good st ur h)

/-- Processing one game preserves the `pc` invariant. -/
theorem processGame_good (pc : PC) (game : Ranking) (h : pcGood pc) :
    pcGood (processGame pc game) :=
  foldl_gameStep_good game (pc, 0, none) h

/-- The final `pc` dict satisfies the invariant for every input corpus. -/
theorem buildPC_good (games : List Ranking) : pcGood (buildPC games) := by
  have : ∀ (gs : List Ranking) (pc : PC), pcGood pc →
      pcGood (gs.foldl processGame pc) := by
    intro gs
    induction gs with
    | nil => exact fun pc h => h
    | cons g rest ih =>
      intro pc h
      rw [List.foldl_cons]
      exact ih (processGame pc g) (processGame_good pc g h)
  exact this games [] ⟨by simp, by simp [pcKeys]⟩

/-- The competitors the classification loop reports as "no loss". -/
def winnersOf (pc : PC) : List Player :=
  (pc.filter (fun x => decide (x.2.1 = 0 ∧ x.2.2 ≠ 0))).map Prod.fst

/-- The competitors the classification loop reports as "no win". -/
def losersOf (pc : PC) : List Player :=
  (pc.filter (fun x => decide (x.2.1 ≠ 0))).map Prod.fst

/-- On an invariant-satisfying `pc`, the classification loop never raises
and returns the accumulated winners and losers. -/
theorem foldlM_classify_spec (pc : PC) (hinv : ∀ x ∈ pc, x.2.1 = 0 ∨ x.2.2 = 0) :
    ∀ acc : List Player × List Player,
      pc.foldlM classifyStep acc =
        Except.ok (acc.1 ++ winnersOf pc, acc.2 ++ losersOf pc) := by
  induction pc with
  | nil =>
    intro acc
    simp only [winnersOf, losersOf, List.filter_nil, List.map_nil,
      List.append_nil]
    rfl
  | cons x xs ih =>
    intro acc
    have hx := hinv x (List.mem_cons_self x xs)
    have hxs : ∀ y ∈ xs, y.2.1 = 0 ∨ y.2.2 = 0 :=
      fun y hy => hinv y (List.mem_cons_of_mem x hy)
    have hbind : (x :: xs).foldlM classifyStep acc =
        classifyStep acc x >>= fun acc' => xs.foldlM classifyStep acc' := by
      simp [List.foldlM]
    rcases Nat.eq_zero_or_pos x.2.1 with hw | hw
    · rcases Nat.eq_zero_or_pos x.2.2 with hl | hl
      · -- both flags cleared: skipped
        have hstep : classifyStep acc x = Except.ok acc := by
          simp [classifyStep, hw, hl]
        rw [hbind, hstep]
        have hwof : winnersOf (x :: xs) = winnersOf xs := by
          simp [winnersOf, List.filter_cons, hl]
        have hlof : losersOf (x :: xs) = losersOf xs := by
          simp [losersOf, List.filter_cons, hw]
        rw [hwof, hlof]
        exact ih hxs acc
      · -- win cleared, loss flag set: a "no loss" winner
        have hstep : classifyStep acc x = Except.ok (acc.1 ++ [x.1], acc.2) := by
          simp [classifyStep, hw, Nat.pos_iff_ne_zero.mp hl]
        rw [hbind, hstep]
        have hwof : winnersOf (x :: xs) = x.1 :: winnersOf xs := by
          simp [winnersOf, List.filter_cons, hw, Nat.pos_iff_ne_zero.mp hl]
        have hlof : losersOf (x :: xs) = losersOf xs := by
          simp [losersOf, List.filter_cons, hw]
        rw [hwof, hlof]
        have hred : (do
            let acc' ← Except.ok (acc.1 ++ [x.1], acc.2)
            List.foldlM classifyStep acc' xs) =
              List.foldlM classifyStep (acc.1 ++ [x.1], acc.2) xs := rfl
        rw [hred, ih hxs (acc.1 ++ [x.1], acc.2)]
        simp
    · -- win flag set: the invariant forces the loss flag cleared; a "no win" loser
      have hl : x.2.2 = 0 := by
        rcases hx with h | h
        · omega
        · exact h
      have hstep : classifyStep acc x = Except.ok (acc.1, acc.2 ++ [x.1]) := by
        simp [classifyStep, Nat.pos_iff_ne_zero.mp hw, hl]
      rw [hbind, hstep]
      have hwof : winnersOf (x :: xs) = winnersOf xs := by
        simp [winnersOf, List.filter_cons, Nat.pos_iff_ne_zero.mp hw]
      have hlof : losersOf (x :: xs) = x.1 :: losersOf xs := by
        simp [losersOf, List.filter_cons, Nat.pos_iff_ne_zero.mp hw]
      rw [hwof, hlof]
      have hred : (do
          let acc' ← Except.ok (acc.1, acc.2 ++ [x.1])
          List.foldlM classifyStep acc' xs) =
            List.foldlM classifyStep (acc.1, acc.2 ++ [x.1]) xs := rfl
      rw [hred, ih hxs (acc.1, acc.2 ++ [x.1])]
      simp

/-- The function `check_games` in closed form: it never raises. -/
theorem check_games_eq (games : List Ranking) :
    check_games games =
      if 0 < ((buildPC games).map (fun x => x.2.1 + x.2.2)).sum then
        Except.ok (some (winnersOf (buildPC games)), some (losersOf (buildPC games)))
      else Except.ok (none, none) := by
  simp only [check_games]
  rw [foldlM_classify_spec (buildPC games) (buildPC_good games).1 ([], [])]
  simp

/-- Two entries of a distinct-key `pc` with the same key are equal. -/
theorem mem_unique_key {pc : PC} (hnd : (pcKeys pc).Nodup)
    {x y : Player × Nat × Nat} (hx : x ∈ pc) (hy : y ∈ pc) (hxy : x.1 = y.1) :
    x = y := by
  induction pc with
  | nil => simp at hx
  | cons z zs ih =>
    have hnd2 : (z.1 :: pcKeys zs).Nodup := hnd
    have hz : z.1 ∉ pcKeys zs := (List.nodup_cons.mp hnd2).1
    have hnd' : (pcKeys zs).Nodup := (List.nodup_cons.mp hnd2).2
    rcases List.mem_cons.mp hx with rfl | hx'
    · rcases List.mem_cons.mp hy with rfl | hy'
      · rfl
      · exact absurd (hxy ▸ List.mem_map_of_mem Prod.fst hy') hz
    · rcases List.mem_cons.mp hy with rfl | hy'
      · exact absurd (hxy ▸ List.mem_map_of_mem Prod.fst hx') hz
      · exact ih hnd' hx' hy'

/-- C10: every entry of the validator's `pc` dict has at least one of its
two flags cleared, so `check_games` never reaches the
"Player with neither win or loss" exception — it returns normally on every
input — and whenever it returns two lists they are disjoint. -/
theorem claim_C10 (games : List Ranking) :
    (∀ x ∈ buildPC games, x.2.1 = 0 ∨ x.2.2 = 0) ∧
      (∃ res, check_games games = Except.ok res) ∧
      (∀ (ws' ls' : List Player) (p : Player),
        check_games games = Except.ok (some ws', some ls') →
          p ∈ ws' → p ∉ ls') := by
  refine ⟨(buildPC_good games).1, ?_, ?_⟩
  · rw [check_games_eq]
    split
    · exact ⟨_, rfl⟩
    · exact ⟨_, rfl⟩
  · intro ws' ls' p heq hpw hpl
    rw [check_games_eq] at heq
    split at heq
    · rw [Except.ok.injEq, Prod.mk.injEq, Option.some.injEq, Option.some.injEq]
        at heq
      obtain ⟨hw, hl⟩ := heq
      subst hw; subst hl
      rcases List.mem_map.mp hpw with ⟨x, hxmem, hxp⟩
      rcases List.mem_map.mp hpl with ⟨y, hymem, hyp⟩
      have hx := List.mem_filter.mp hxmem
      have hy := List.mem_filter.mp hymem
      have hxy : x = y :=
        mem_unique_key (buildPC_good games).2 hx.1 hy.1 (hxp.trans hyp.symm)
      have hx0 : x.2.1 = 0 := (of_decide_eq_true hx.2).1
      have hy0 : y.2.1 ≠ 0 := of_decide_eq_true hy.2
      exact hy0 (hxy ▸ hx0)
    · simp at heq

/-- Witness for C10's conditional parts at a concrete corpus: player 0
(reported "no loss") is not also reported "no win". -/
theorem claim_C10_witness :
    Player.real 0 ∉ [Player.real 1] :=
  (claim_C10 [[(Player.real 0, 1), (Player.real 1, 2)]]).2.2
    [Player.real 0] [Player.real 1] (Player.real 0) rfl (by decide)

/-! ## Claim C8 -/

/-- Written from claim C8's words: track the current best (lowest) finish
position seen so far and its holder; when a new strictly-better holder is
found, the previous best holder is marked with a loss-class event and the
new holder becomes the tentative winner; any competitor whose position is
worse than rank 1 is immediately marked with a loss-class event; the final
tentative best holder is credited a win-class event only implicitly (no
explicit mark). -/
def claimStep (st : PC × Option (Player × Nat)) (ur : Player × Nat) :
    PC × Option (Player × Nat) :=
  let pc := if 1 < ur.2 then clearLoss st.1 ur.1 else st.1
  match st.2 with
  | none => (pc, some ur)
  | some b =>
    if ur.2 < b.2 then (clearLoss pc b.1, some ur)
    else (pc, some b)

/-- The per-ranking detection as claim C8 describes it. -/
def claimProcessGame (pc : PC) (game : Ranking) : PC :=
  (game.foldl claimStep (pc, none)).1

/-- The amended description of the detection: track the current worst
(highest) finish position seen so far and its holder; when a new
strictly-worse holder is found, the previous worst holder is marked with a
WIN-class event and the new holder becomes the tentative last-place
candidate; any competitor whose position is strictly better than the
current worst is immediately marked with a win-class event; any competitor
whose position is worse than rank 1 is immediately marked with a
loss-class event; the final tentative worst holder receives no mark from
the tracking. -/
def specStep (st : PC × Option (Player × Nat)) (ur : Player × Nat) :
    PC × Option (Player × Nat) :=
  let pc := if 1 < ur.2 then clearLoss st.1 ur.1 else st.1
  match st.2 with
  | none => (pc, some ur)
  | some w =>
    if w.2 < ur.2 then (clearWin pc w.1, some ur)
    else if ur.2 < w.2 then (clearWin pc ur.1, some w)
    else (pc, some w)

/-- The per-ranking detection as amended. -/
def specProcessGame (pc : PC) (game : Ranking) : PC :=
  (game.foldl specStep (pc, none)).1

/-- A three-participant game processed in the order worst-but-one, worst,
best. -/
def gameC8 : Ranking :=
  [(Player.real 0, 2), (Player.real 1, 3), (Player.real 2, 1)]

/-- C8, counterexample: on `gameC8` the claimed best-holder tracking marks
player 0 as having a loss-class event only (it never clears win flags),
while the code clears player 0's missing-win flag (player 0 is displaced
as worst holder by player 1, crediting a win). The resulting `pc` dicts
differ. -/
theorem claim_C8_counterexample :
    claimProcessGame [] gameC8 ≠ processGame [] gameC8 := by
  decide

/-- The code's inner-loop state and the amended description's state stay
related: either nothing seen yet, or the tracked holder/rank pair agrees,
the rank is positive and the holder truthy. -/
theorem foldl_code_spec_rel (game : Ranking)
    (hpos : ∀ x ∈ game, 1 ≤ x.2) (htr : ∀ x ∈ game, x.1.truthy = true) :
    ∀ (pc : PC) (mr : Nat) (mu : Option Player) (om : Option (Player × Nat)),
      ((mr = 0 ∧ mu = none ∧ om = none) ∨
        (∃ m, mu = some m ∧ om = some (m, mr) ∧ 1 ≤ mr ∧ m.truthy = true)) →
      (game.foldl gameStep (pc, mr, mu)).1 = (game.foldl specStep (pc, om)).1 := by
  induction game with
  | nil =>
    intro pc mr mu om _
    rfl
  | cons ur rest ih =>
    intro pc mr mu om hrel
    have hpos' : ∀ x ∈ rest, 1 ≤ x.2 :=
      fun x hx => hpos x (List.mem_cons_of_mem ur hx)
    have htr' : ∀ x ∈ rest, x.1.truthy = true :=
      fun x hx => htr x (List.mem_cons_of_mem ur hx)
    have hur : 1 ≤ ur.2 := hpos ur (List.mem_cons_self ur rest)
    have hurt : ur.1.truthy = true := htr ur (List.mem_cons_self ur rest)
    rw [List.foldl_cons, List.foldl_cons]
    rcases hrel with ⟨hmr, hmu, hom⟩ | ⟨m, hmu, hom, hmr, htru⟩
    · subst hmr; subst hmu; subst hom
      have hcode : gameStep (pc, 0, none) ur =
          (if 1 < ur.2 then clearLoss pc ur.1 else pc, ur.2, some ur.1) := by
        simp only [gameStep]
        rw [if_pos (by omega : (0:Nat) < ur.2)]
      have hspec : specStep (pc, none) ur =
          (if 1 < ur.2 then clearLoss pc ur.1 else pc, some ur) := by
        simp only [specStep]
      rw [hcode, hspec]
      exact ih hpos' htr' _ _ _ _ (Or.inr ⟨ur.1, rfl, rfl, hur, hurt⟩)
    · subst hmu; subst hom
      rcases Nat.lt_trichotomy mr ur.2 with hlt | heq | hgt
      · have hcode : gameStep (pc, mr, some m) ur =
            (clearWin (if 1 < ur.2 then clearLoss pc ur.1 else pc) m,
              ur.2, some ur.1) := by
          simp only [gameStep]
          rw [if_pos hlt, htru]
          simp
        have hspec : specStep (pc, some (m, mr)) ur =
            (clearWin (if 1 < ur.2 then clearLoss pc ur.1 else pc) m,
              some ur) := by
          simp only [specStep]
          rw [if_pos hlt]
        rw [hcode, hspec]
        exact ih hpos' htr' _ _ _ _ (Or.inr ⟨ur.1, rfl, rfl, hur, hurt⟩)
      · have hcode : gameStep (pc, mr, some m) ur =
            (if 1 < ur.2 then clearLoss pc ur.1 else pc, mr, some m) := by
          simp only [gameStep]
          rw [if_neg (by omega : ¬ mr < ur.2), if_neg (by omega : ¬ ur.2 < mr)]
        have hspec : specStep (pc, some (m, mr)) ur =
            (if 1 < ur.2 then clearLoss pc ur.1 else pc, some (m, mr)) := by
          simp only [specStep]
          rw [if_neg (by omega : ¬ mr < ur.2), if_neg (by omega : ¬ ur.2 < mr)]
        rw [hcode, hspec]
        exact ih hpos' htr' _ _ _ _ (Or.inr ⟨m, rfl, rfl, hmr, htru⟩)
      · have hcode : gameStep (pc, mr, some m) ur =
            (clearWin (if 1 < ur.2 then clearLoss pc ur.1 else pc) ur.1,
              mr, some m) := by
          simp only [gameStep]
          rw [if_neg (by omega : ¬ mr < ur.2), if_pos hgt]
        have hspec : specStep (pc, some (m, mr)) ur =
            (clearWin (if 1 < ur.2 then clearLoss pc ur.1 else pc) ur.1,
              some (m, mr)) := by
          simp only [specStep]
          rw [if_neg (by omega : ¬ mr < ur.2), if_pos hgt]
        rw [hcode, hspec]
        exact ih hpos' htr' _ _ _ _ (Or.inr ⟨m, rfl, rfl, hmr, htru⟩)

/-- C8 (amended): on games of truthy competitors with positive finish
positions, the code's per-ranking detection is exactly: track the current
worst (highest) position and its holder; a strictly worse newcomer
displaces the holder, marking the displaced holder with a win-class
event; a position strictly better than the current worst is marked with a
win-class event immediately; a position worse than rank 1 is marked with a
loss-class event; the final worst holder gets no mark from the tracking. -/
theorem claim_C8 (pc : PC) (game : Ranking)
    (hpos : ∀ x ∈ game, 1 ≤ x.2) (htr : ∀ x ∈ game, x.1.truthy = true) :
    processGame pc game = specProcessGame pc game :=
  foldl_code_spec_rel game hpos htr pc 0 none none (Or.inl ⟨rfl, rfl, rfl⟩)

/-- Witness for C8 at a concrete game. -/
theorem claim_C8_witness :
    processGame [] gameC8 = specProcessGame [] gameC8 :=
  claim_C8 [] gameC8 (by decide) (by decide)

/-! ## Claim C7 -/

/-- All participants of a corpus. -/
def allPlayers (games : List Ranking) : List Player :=
  (games.map keys).flatten

/-- The op `clearWin` pointwise: the targeted key gets win flag 0 (keeping its
loss flag, or starting from `[1,1]`); other keys are untouched. -/
theorem pcLookup_clearWin (pc : PC) (u v : Player) :
    pcLookup (clearWin pc u) v =
      if v = u then
        (match pcLookup pc u with
          | some wl => some (0, wl.2)
          | none => some (0, 1))
      else pcLookup pc v := by
  induction pc with
  | nil =>
    rcases eq_or_ne v u with h | h
    · subst h; simp [clearWin, pcLookup]
    · simp [clearWin, pcLookup, h, Ne.symm h]
  | cons x xs ih =>
    rw [clearWin]
    rcases eq_or_ne x.1 u with h | h
    · rw [if_pos h]
      rcases eq_or_ne v u with hv | hv
      · subst hv
        have h1 : pcLookup ((x.1, 0, x.2.2) :: xs) v = some (0, x.2.2) := by
          rw [pcLookup, if_pos h]
        have h2 : pcLookup (x :: xs) v = some x.2 := by
          rw [pcLookup, if_pos h]
        rw [h1, if_pos rfl, h2]
      · have hxv : ¬ x.1 = v := fun hc => hv ((hc.symm).trans h)
        have h1 : pcLookup ((x.1, 0, x.2.2) :: xs) v = pcLookup xs v := by
          rw [pcLookup, if_neg hxv]
        have h2 : pcLookup (x :: xs) v = pcLookup xs v := by
          rw [pcLookup, if_neg hxv]
        rw [h1, if_neg hv, h2]
    · rw [if_neg h]
      rcases eq_or_ne x.1 v with hxv | hxv
      · have hvu : ¬ v = u := fun hc => h (hxv.trans hc)
        have h1 : pcLookup (x :: clearWin xs u) v = some x.2 := by
          rw [pcLookup, if_pos hxv]
        have h2 : pcLookup (x :: xs) v = some x.2 := by
          rw [pcLookup, if_pos hxv]
        rw [h1, if_neg hvu, h2]
      · have h1 : pcLookup (x :: clearWin xs u) v = pcLookup (clearWin xs u) v := by
          rw [pcLookup, if_neg hxv]
        have h2 : pcLookup (x :: xs) v = pcLookup xs v := by
          rw [pcLookup, if_neg hxv]
        have h3 : pcLookup (x :: xs) u = pcLookup xs u := by
          rw [pcLookup, if_neg h]
        rw [h1, ih, h2, h3]

/-- The op `clearLoss` pointwise. -/
theorem pcLookup_clearLoss (pc : PC) (u v : Player) :
    pcLookup (clearLoss pc u) v =
      if v = u then
        (match pcLookup pc u with
          | some wl => some (wl.1, 0)
          | none => some (1, 0))
      else pcLookup pc v := by
  induction pc with
  | nil =>
    rcases eq_or_ne v u with h | h
    · subst h; simp [clearLoss, pcLookup]
    · simp [clearLoss, pcLookup, h, Ne.symm h]
  | cons x xs ih =>
    rw [clearLoss]
    rcases eq_or_ne x.1 u with h | h
    · rw [if_pos h]
      rcases eq_or_ne v u with hv | hv
      · subst hv
        have h1 : pcLookup ((x.1, x.2.1, 0) :: xs) v = some (x.2.1, 0) := by
          rw [pcLookup, if_pos h]
        have h2 : pcLookup (x :: xs) v = some x.2 := by
          rw [pcLookup, if_pos h]
        rw [h1, if_pos rfl, h2]
      · have hxv : ¬ x.1 = v := fun hc => hv ((hc.symm).trans h)
        have h1 : pcLookup ((x.1, x.2.1, 0) :: xs) v = pcLookup xs v := by
          rw [pcLookup, if_neg hxv]
        have h2 : pcLookup (x :: xs) v = pcLookup xs v := by
          rw [pcLookup, if_neg hxv]
        rw [h1, if_neg hv, h2]
    · rw [if_neg h]
      rcases eq_or_ne x.1 v with hxv | hxv
      · have hvu : ¬ v = u := fun hc => h (hxv.trans hc)
        have h1 : pcLookup (x :: clearLoss xs u) v = some x.2 := by
          rw [pcLookup, if_pos hxv]
        have h2 : pcLookup (x :: xs) v = some x.2 := by
          rw [pcLookup, if_pos hxv]
        rw [h1, if_neg hvu, h2]
      · have h1 : pcLookup (x :: clearLoss xs u) v = pcLookup (clearLoss xs u) v := by
          rw [pcLookup, if_neg hxv]
        have h2 : pcLookup (x :: xs) v = pcLookup xs v := by
          rw [pcLookup, if_neg hxv]
        have h3 : pcLookup (x :: xs) u = pcLookup xs u := by
          rw [pcLookup, if_neg h]
        rw [h1, ih, h2, h3]

/-- Evidence ordering on `pc` dicts: flags only ever get cleared. -/
def pcLe (pc pc' : PC) : Prop :=
  ∀ u w l, pcLookup pc u = some (w, l) →
    ∃ w' l', pcLookup pc' u = some (w', l') ∧ w' ≤ w ∧ l' ≤ l

theorem pcLe_refl (pc : PC) : pcLe pc pc :=
  fun _ w l h => ⟨w, l, h, le_refl w, le_refl l⟩

theorem pcLe_trans {pc1 pc2 pc3 : PC} (h1 : pcLe pc1 pc2) (h2 : pcLe pc2 pc3) :
    pcLe pc1 pc3 := by
  intro u w l h
  obtain ⟨w2, l2, hl2, hw2, hl2'⟩ := h1 u w l h
  obtain ⟨w3, l3, hl3, hw3, hl3'⟩ := h2 u w2 l2 hl2
  exact ⟨w3, l3, hl3, le_trans hw3 hw2, le_trans hl3' hl2'⟩

theorem pcLe_clearWin (pc : PC) (u : Player) : pcLe pc (clearWin pc u) := by
  intro v w l h
  rw [pcLookup_clearWin]
  rcases eq_or_ne v u with hv | hv
  · subst hv
    rw [if_pos rfl, h]
    exact ⟨0, l, rfl, Nat.zero_le w, le_refl l⟩
  · rw [if_neg hv]
    exact ⟨w, l, h, le_refl w, le_refl l⟩

theorem pcLe_clearLoss (pc : PC) (u : Player) : pcLe pc (clearLoss pc u) := by
  intro v w l h
  rw [pcLookup_clearLoss]
  rcases eq_or_ne v u with hv | hv
  · subst hv
    rw [if_pos rfl, h]
    exact ⟨w, 0, rfl, le_refl w, Nat.zero_le l⟩
  · rw [if_neg hv]
    exact ⟨w, l, h, le_refl w, le_refl l⟩

theorem pcLe_gameStep (st : PC × Nat × Option Player) (ur : Player × Nat) :
    pcLe st.1 (gameStep st ur).1 := by
  obtain ⟨pc, mr, mu⟩ := st
  obtain ⟨u, rk⟩ := ur
  have hcl : pcLe pc (if 1 < rk then clearLoss pc u else pc) := by
    split
    · exact pcLe_clearLoss pc u
    · exact pcLe_refl pc
  rcases mu with _ | m
  · simp only [gameStep]
    split
    · exact hcl
    · split
      · exact pcLe_trans hcl (pcLe_clearWin _ u)
      · exact hcl
  · simp only [gameStep]
    split
    · split
      · exact pcLe_trans hcl (pcLe_clearWin _ m)
      · exact hcl
    · split
      · exact pcLe_trans hcl (pcLe_clearWin _ u)
      · exact hcl

theorem pcLe_foldl_gameStep (game : Ranking) :
    ∀ st : PC × Nat × Option Player, pcLe st.1 (game.foldl gameStep st).1 := by
  induction game with
  | nil => exact fun st => pcLe_refl st.1
  | cons ur rest ih =>
    intro st
    rw [List.foldl_cons]
    exact pcLe_trans (pcLe_gameStep st ur) (ih (gameStep st ur))

theorem pcLe_processGame (pc : PC) (game : Ranking) :
    pcLe pc (processGame pc game) :=
  pcLe_foldl_gameStep game (pc, 0, none)

theorem pcLe_foldl_processGame (games : List Ranking) :
    ∀ pc : PC, pcLe pc (games.foldl processGame pc) := by
  induction games with
  | nil => exact fun pc => pcLe_refl pc
  | cons g rest ih =>
    intro pc
    rw [List.foldl_cons]
    exact pcLe_trans (pcLe_processGame pc g) (ih (processGame pc g))

/-- Holds when `p`'s missing-win flag has been cleared. -/
def winCleared (pc : PC) (p : Player) : Prop :=
  ∃ l, pcLookup pc p = some (0, l)

/-- Holds when `p`'s missing-loss flag has been cleared. -/
def lossCleared (pc : PC) (p : Player) : Prop :=
  ∃ w, pcLookup pc p = some (w, 0)

theorem winCleared_mono {pc pc' : PC} {p : Player} (hle : pcLe pc pc')
    (h : winCleared pc p) : winCleared pc' p := by
  obtain ⟨l, hl⟩ := h
  obtain ⟨w', l', hl', hw', _⟩ := hle p 0 l hl
  exact ⟨l', by rwa [Nat.le_zero.mp hw'] at hl'⟩

theorem lossCleared_mono {pc pc' : PC} {p : Player} (hle : pcLe pc pc')
    (h : lossCleared pc p) : lossCleared pc' p := by
  obtain ⟨w, hw⟩ := h
  obtain ⟨w', l', hl', _, hle'⟩ := hle p w 0 hw
  exact ⟨w', by rwa [Nat.le_zero.mp hle'] at hl'⟩

theorem winCleared_clearWin (pc : PC) (u : Player) : winCleared (clearWin pc u) u := by
  rw [winCleared, pcLookup_clearWin, if_pos rfl]
  rcases h : pcLookup pc u with _ | wl
  · exact ⟨1, rfl⟩
  · exact ⟨wl.2, rfl⟩

theorem lossCleared_clearLoss (pc : PC) (u : Player) :
    lossCleared (clearLoss pc u) u := by
  rw [lossCleared, pcLookup_clearLoss, if_pos rfl]
  rcases h : pcLookup pc u with _ | wl
  · exact ⟨1, rfl⟩
  · exact ⟨wl.1, rfl⟩

/-- The map `rvalues` distributes over append. -/
theorem rvalues_append (l1 l2 : Ranking) :
    rvalues (l1 ++ l2) = rvalues l1 ++ rvalues l2 :=
  List.map_append Prod.snd l1 l2

/-- Two entries of a ranking with distinct finish values and the same
value are the same entry. -/
theorem snd_nodup_unique {l : Ranking} (hnd : (rvalues l).Nodup)
    {a b : Player × Nat} (ha : a ∈ l) (hb : b ∈ l) (hab : a.2 = b.2) :
    a = b := by
  induction l with
  | nil => simp at ha
  | cons x xs ih =>
    have hx : x.2 ∉ rvalues xs := by
      have : (x.2 :: rvalues xs).Nodup := by simpa [rvalues] using hnd
      exact (List.nodup_cons.mp this).1
    have hnd' : (rvalues xs).Nodup := by
      have : (x.2 :: rvalues xs).Nodup := by simpa [rvalues] using hnd
      exact (List.nodup_cons.mp this).2
    rcases List.mem_cons.mp ha with rfl | ha'
    · rcases List.mem_cons.mp hb with rfl | hb'
      · rfl
      · exact absurd (hab ▸ List.mem_map_of_mem Prod.snd hb') hx
    · rcases List.mem_cons.mp hb with rfl | hb'
      · exact absurd (hab ▸ List.mem_map_of_mem Prod.snd ha') hx
      · exact ih hnd' ha' hb'

/-- Keys added by `clearWin` are at most the targeted key. -/
theorem pcKeys_clearWin_sub {pc : PC} {u v : Player}
    (h : v ∈ pcKeys (clearWin pc u)) : v ∈ pcKeys pc ∨ v = u := by
  rw [clearWin_keys] at h
  split at h
  · exact Or.inl h
  · rcases List.mem_append.mp h with h' | h'
    · exact Or.inl h'
    · exact Or.inr (List.mem_singleton.mp h')

/-- Keys added by `clearLoss` are at most the targeted key. -/
theorem pcKeys_clearLoss_sub {pc : PC} {u v : Player}
    (h : v ∈ pcKeys (clearLoss pc u)) : v ∈ pcKeys pc ∨ v = u := by
  rw [clearLoss_keys] at h
  split at h
  · exact Or.inl h
  · rcases List.mem_append.mp h with h' | h'
    · exact Or.inl h'
    · exact Or.inr (List.mem_singleton.mp h')

/-- The result `pc` of one inner-loop step: the loss-marking, possibly
followed by one `clearWin`. -/
theorem gameStep_pc_cases (st : PC × Nat × Option Player) (ur : Player × Nat) :
    (gameStep st ur).1 = (if 1 < ur.2 then clearLoss st.1 ur.1 else st.1) ∨
      ∃ z, (gameStep st ur).1 =
        clearWin (if 1 < ur.2 then clearLoss st.1 ur.1 else st.1) z := by
  obtain ⟨pc, mr, mu⟩ := st
  obtain ⟨u, rk⟩ := ur
  rcases mu with _ | m
  · simp only [gameStep]
    split
    · left; rfl
    · split
      · right; exact ⟨u, rfl⟩
      · left; rfl
  · simp only [gameStep]
    split
    · split
      · right; exact ⟨m, rfl⟩
      · left; rfl
    · split
      · right; exact ⟨u, rfl⟩
      · left; rfl

/-- The inner-loop invariant over the processed prefix `seen`: the tracked
`max_user`/`max_rank` is a seen entry holding the maximal seen finish
value; every seen competitor strictly better than the current worst has
its missing-win flag cleared; keys of `pc` come from the initial `pc` or
from `seen`. -/
def detInv (pc0 : PC) (seen : Ranking) (st : PC × Nat × Option Player) : Prop :=
  (st.2.2 = none → seen = [] ∧ st.2.1 = 0) ∧
  (∀ m, st.2.2 = some m → (m, st.2.1) ∈ seen ∧ ∀ x ∈ seen, x.2 ≤ st.2.1) ∧
  (∀ x ∈ seen, x.2 < st.2.1 → winCleared st.1 x.1) ∧
  (∀ u ∈ pcKeys st.1, u ∈ pcKeys pc0 ∨ u ∈ keys seen)

/-- One inner-loop step preserves the detection invariant. -/
theorem detInv_step (pc0 : PC) (seen : Ranking) (st : PC × Nat × Option Player)
    (ur : Player × Nat) (hinv : detInv pc0 seen st)
    (hndr : (rvalues (seen ++ [ur])).Nodup) (hpos : 1 ≤ ur.2)
    (htr : ∀ x ∈ seen ++ [ur], x.1.truthy = true) :
    detInv pc0 (seen ++ [ur]) (gameStep st ur) := by
  obtain ⟨pc, mr, mu⟩ := st
  obtain ⟨u, rk⟩ := ur
  obtain ⟨ha, hb, hc, hd⟩ := hinv
  dsimp only at ha hb hc hd
  have hndseen : (rvalues seen).Nodup := by
    rw [rvalues_append] at hndr
    exact List.Nodup.of_append_left hndr
  have hposr : (1:Nat) ≤ rk := hpos
  have hpc1le : pcLe pc (if 1 < rk then clearLoss pc u else pc) := by
    split
    · exact pcLe_clearLoss pc u
    · exact pcLe_refl pc
  have hpc1keys : ∀ v, v ∈ pcKeys (if 1 < rk then clearLoss pc u else pc) →
      v ∈ pcKeys pc ∨ v = u := by
    intro v hv
    split at hv
    · exact pcKeys_clearLoss_sub hv
    · exact Or.inl hv
  rcases mu with _ | m
  · -- nothing seen yet: the first entry becomes the tracked worst
    obtain ⟨hseen, hmr⟩ := ha rfl
    subst hseen
    subst hmr
    have hcode : gameStep (pc, 0, none) (u, rk) =
        (if 1 < rk then clearLoss pc u else pc, rk, some u) := by
      simp only [gameStep]
      rw [if_pos (by omega : (0:Nat) < rk)]
    rw [hcode]
    unfold detInv
    dsimp only
    refine ⟨by simp, ?_, ?_, ?_⟩
    · intro m hm
      rw [Option.some.injEq] at hm
      subst hm
      exact ⟨by simp, by simp⟩
    · intro x hx hlt
      rcases List.mem_singleton.mp (by simpa using hx) with rfl
      omega
    · intro v hv
      rcases hpc1keys v hv with h | h
      · rcases hd v h with h' | h'
        · exact Or.inl h'
        · simp [keys] at h'
      · subst h
        right
        simp [keys]
  · obtain ⟨hmmem, hmbound⟩ := hb m rfl
    have hmtr : m.truthy = true := htr (m, mr) (List.mem_append_left _ hmmem)
    rcases Nat.lt_trichotomy mr rk with hlt | heq | hgt
    · -- strictly worse newcomer: displace and win-mark the old holder
      have hcode : gameStep (pc, mr, some m) (u, rk) =
          (clearWin (if 1 < rk then clearLoss pc u else pc) m, rk, some u) := by
        simp only [gameStep]
        rw [if_pos hlt, hmtr]
        simp
      rw [hcode]
      unfold detInv
      dsimp only
      refine ⟨by simp, ?_, ?_, ?_⟩
      · intro m' hm'
        rw [Option.some.injEq] at hm'
        subst hm'
        refine ⟨List.mem_append_right _ (by simp), ?_⟩
        intro x hx
        rcases List.mem_append.mp hx with hx' | hx'
        · exact le_of_lt (lt_of_le_of_lt (hmbound x hx') hlt)
        · rcases List.mem_singleton.mp hx' with rfl
          exact le_refl rk
      · intro x hx hxlt
        rcases List.mem_append.mp hx with hx' | hx'
        · rcases Nat.lt_trichotomy x.2 mr with h2 | h2 | h2
          · exact winCleared_mono
              (pcLe_trans hpc1le (pcLe_clearWin _ m))
              (hc x hx' h2)
          · have hxm : x = (m, mr) :=
              snd_nodup_unique hndseen hx' hmmem h2
            rw [hxm]
            exact winCleared_clearWin _ m
          · exact absurd (hmbound x hx') (by omega)
        · rcases List.mem_singleton.mp hx' with rfl
          omega
      · intro v hv
        rcases pcKeys_clearWin_sub hv with hv' | hv'
        · rcases hpc1keys v hv' with h | h
          · rcases hd v h with h2 | h2
            · exact Or.inl h2
            · exact Or.inr (by simpa [keys] using Or.inl (by simpa [keys] using h2))
          · subst h
            right
            simp [keys]
        · subst hv'
          right
          have : v ∈ keys seen := List.mem_map_of_mem Prod.fst hmmem
          simpa [keys] using Or.inl (by simpa [keys] using this)
    · -- equal rank: the holder is kept
      have hcode : gameStep (pc, mr, some m) (u, rk) =
          (if 1 < rk then clearLoss pc u else pc, mr, some m) := by
        simp only [gameStep]
        rw [if_neg (by omega : ¬ mr < rk), if_neg (by omega : ¬ rk < mr)]
      rw [hcode]
      unfold detInv
      dsimp only
      refine ⟨by simp, ?_, ?_, ?_⟩
      · intro m' hm'
        rw [Option.some.injEq] at hm'
        subst hm'
        refine ⟨List.mem_append_left _ hmmem, ?_⟩
        intro x hx
        rcases List.mem_append.mp hx with hx' | hx'
        · exact hmbound x hx'
        · rcases List.mem_singleton.mp hx' with rfl
          omega
      · intro x hx hxlt
        rcases List.mem_append.mp hx with hx' | hx'
        · exact winCleared_mono hpc1le (hc x hx' hxlt)
        · rcases List.mem_singleton.mp hx' with rfl
          omega
      · intro v hv
        rcases hpc1keys v hv with h | h
        · rcases hd v h with h2 | h2
          · exact Or.inl h2
          · exact Or.inr (by simpa [keys] using Or.inl (by simpa [keys] using h2))
        · subst h
          right
          simp [keys]
    · -- strictly better than the worst: win-mark the newcomer
      have hcode : gameStep (pc, mr, some m) (u, rk) =
          (clearWin (if 1 < rk then clearLoss pc u else pc) u, mr, some m) := by
        simp only [gameStep]
        rw [if_neg (by omega : ¬ mr < rk), if_pos hgt]
      rw [hcode]
      unfold detInv
      dsimp only
      refine ⟨by simp, ?_, ?_, ?_⟩
      · intro m' hm'
        rw [Option.some.injEq] at hm'
        subst hm'
        refine ⟨List.mem_append_left _ hmmem, ?_⟩
        intro x hx
        rcases List.mem_append.mp hx with hx' | hx'
        · exact hmbound x hx'
        · rcases List.mem_singleton.mp hx' with rfl
          omega
      · intro x hx hxlt
        rcases List.mem_append.mp hx with hx' | hx'
        · exact winCleared_mono
            (pcLe_trans hpc1le (pcLe_clearWin _ u))
            (hc x hx' hxlt)
        · rcases List.mem_singleton.mp hx' with rfl
          exact winCleared_clearWin _ u
      · intro v hv
        rcases pcKeys_clearWin_sub hv with hv' | hv'
        · rcases hpc1keys v hv' with h | h
          · rcases hd v h with h2 | h2
            · exact Or.inl h2
            · exact Or.inr (by simpa [keys] using Or.inl (by simpa [keys] using h2))
          · subst h
            right
            simp [keys]
        · subst hv'
          right
          simp [keys]

/-- The invariant carried through the whole inner loop. -/
theorem detInv_foldl (pc0 : PC) :
    ∀ (rest seen : Ranking) (st : PC × Nat × Option Player),
      (rvalues (seen ++ rest)).Nodup →
      (∀ x ∈ seen ++ rest, 1 ≤ x.2) →
      (∀ x ∈ seen ++ rest, x.1.truthy = true) →
      detInv pc0 seen st →
      detInv pc0 (seen ++ rest) (rest.foldl gameStep st) := by
  intro rest
  induction rest with
  | nil =>
    intro seen st _ _ _ h
    simpa using h
  | cons ur rest' ih =>
    intro seen st hnd hpos htr hinv
    rw [List.foldl_cons]
    have hassoc : seen ++ ur :: rest' = (seen ++ [ur]) ++ rest' := by simp
    rw [hassoc] at hnd hpos htr
    have hndleft : (rvalues (seen ++ [ur])).Nodup := by
      rw [rvalues_append] at hnd
      exact List.Nodup.of_append_left hnd
    have hstep := detInv_step pc0 seen st ur hinv hndleft
      (hpos ur (List.mem_append_left _ (List.mem_append_right _ (by simp))))
      (fun x hx => htr x (List.mem_append_left _ hx))
    have := ih (seen ++ [ur]) (gameStep st ur) hnd hpos htr hstep
    rwa [hassoc]

/-- A competitor who finishes strictly better than some rival in a game
has its missing-win flag cleared by processing that game. -/
theorem processGame_win (pc : PC) (g : Ranking)
    (hnd : (rvalues g).Nodup) (hpos : ∀ x ∈ g, 1 ≤ x.2)
    (htr : ∀ x ∈ g, x.1.truthy = true)
    {p q : Player} {rp rq : Nat} (hp : (p, rp) ∈ g) (hq : (q, rq) ∈ g)
    (hlt : rp < rq) : winCleared (processGame pc g) p := by
  have hinit : detInv pc [] (pc, 0, none) := by
    refine ⟨fun _ => ⟨rfl, rfl⟩, by simp, by simp, fun u hu => Or.inl hu⟩
  have h := detInv_foldl pc g [] (pc, 0, none)
    (by simpa using hnd) (by simpa using hpos) (by simpa using htr) hinit
  simp only [List.nil_append] at h
  rcases hmu : (g.foldl gameStep (pc, 0, none)).2.2 with _ | m
  · obtain ⟨hseen, -⟩ := h.1 hmu
    rw [hseen] at hp
    simp at hp
  · obtain ⟨-, hbound⟩ := h.2.1 m hmu
    exact h.2.2.1 (p, rp) hp (lt_of_lt_of_le hlt (hbound (q, rq) hq))

/-- The tracked `max_user` after one step: unchanged or the new entry. -/
theorem gameStep_mu_cases (st : PC × Nat × Option Player) (ur : Player × Nat) :
    (gameStep st ur).2.2 = st.2.2 ∨ (gameStep st ur).2.2 = some ur.1 := by
  obtain ⟨pc, mr, mu⟩ := st
  obtain ⟨u, rk⟩ := ur
  rcases mu with _ | m
  · simp only [gameStep]
    split
    · right; rfl
    · split
      · left; rfl
      · left; rfl
  · simp only [gameStep]
    split
    · split
      · right; rfl
      · right; rfl
    · split
      · left; rfl
      · left; rfl

/-- The keys produced by one step: old keys, the new entry's key, or the
tracked holder's key. -/
theorem gameStep_keys (st : PC × Nat × Option Player) (ur : Player × Nat)
    (u : Player) (hu : u ∈ pcKeys (gameStep st ur).1) :
    u ∈ pcKeys st.1 ∨ u = ur.1 ∨ (∃ m, st.2.2 = some m ∧ u = m) := by
  obtain ⟨pc, mr, mu⟩ := st
  obtain ⟨urn, rk⟩ := ur
  have hpc1 : ∀ v, v ∈ pcKeys (if 1 < rk then clearLoss pc urn else pc) →
      v ∈ pcKeys pc ∨ v = urn := by
    intro v hv
    split at hv
    · exact pcKeys_clearLoss_sub hv
    · exact Or.inl hv
  rcases mu with _ | m
  · simp only [gameStep] at hu
    split at hu
    · dsimp only at hu
      rcases hpc1 u hu with h | h
      · exact Or.inl h
      · exact Or.inr (Or.inl h)
    · split at hu
      · dsimp only at hu
        rcases pcKeys_clearWin_sub hu with h | h
        · rcases hpc1 u h with h2 | h2
          · exact Or.inl h2
          · exact Or.inr (Or.inl h2)
        · exact Or.inr (Or.inl h)
      · dsimp only at hu
        rcases hpc1 u hu with h | h
        · exact Or.inl h
        · exact Or.inr (Or.inl h)
  · simp only [gameStep] at hu
    split at hu
    · split at hu
      · dsimp only at hu
        rcases pcKeys_clearWin_sub hu with h | h
        · rcases hpc1 u h with h2 | h2
          · exact Or.inl h2
          · exact Or.inr (Or.inl h2)
        · exact Or.inr (Or.inr ⟨m, rfl, h⟩)
      · dsimp only at hu
        rcases hpc1 u hu with h | h
        · exact Or.inl h
        · exact Or.inr (Or.inl h)
    · split at hu
      · dsimp only at hu
        rcases pcKeys_clearWin_sub hu with h | h
        · rcases hpc1 u h with h2 | h2
          · exact Or.inl h2
          · exact Or.inr (Or.inl h2)
        · exact Or.inr (Or.inl h)
      · dsimp only at hu
        rcases hpc1 u hu with h | h
        · exact Or.inl h
        · exact Or.inr (Or.inl h)

/-- Keys accumulated over the inner loop come from the start state's `pc`,
the game's participants, or the start state's tracked holder. -/
theorem foldl_gameStep_keys (g : Ranking) :
    ∀ (st : PC × Nat × Option Player) (u : Player),
      u ∈ pcKeys ((g.foldl gameStep st).1) →
      u ∈ pcKeys st.1 ∨ u ∈ keys g ∨ (∃ m, st.2.2 = some m ∧ u = m) := by
  induction g with
  | nil =>
    intro st u hu
    exact Or.inl hu
  | cons ur rest ih =>
    intro st u hu
    rw [List.foldl_cons] at hu
    rcases ih (gameStep st ur) u hu with h | h | h
    · rcases gameStep_keys st ur u h with h' | h' | ⟨m, hm, hum⟩
      · exact Or.inl h'
      · exact Or.inr (Or.inl (by simp [keys, h']))
      · exact Or.inr (Or.inr ⟨m, hm, hum⟩)
    · exact Or.inr (Or.inl (by simp [keys] at h ⊢; exact Or.inr h))
    · obtain ⟨m, hm, hum⟩ := h
      rcases gameStep_mu_cases st ur with hc | hc
      · exact Or.inr (Or.inr ⟨m, hc ▸ hm, hum⟩)
      · rw [hc] at hm
        rw [Option.some.injEq] at hm
        exact Or.inr (Or.inl (by simp [keys, hum, ← hm]))

/-- The keys created by processing a game come from the previous `pc` or
from the game's participants. -/
theorem processGame_keys (pc : PC) (g : Ranking)
    {u : Player} (hu : u ∈ pcKeys (processGame pc g)) :
    u ∈ pcKeys pc ∨ u ∈ keys g := by
  rcases foldl_gameStep_keys g (pc, 0, none) u hu with h | h | ⟨m, hm, -⟩
  · exact Or.inl h
  · exact Or.inr h
  · exact absurd hm (by simp)

/-- A competitor whose finish is worse than rank 1 has its missing-loss
flag cleared by processing that game. -/
theorem processGame_loss (pc : PC) (g : Ranking)
    {p : Player} {rp : Nat} (hp : (p, rp) ∈ g) (h1 : 1 < rp) :
    lossCleared (processGame pc g) p := by
  suffices h : ∀ (g' : Ranking) (st : PC × Nat × Option Player), (p, rp) ∈ g' →
      lossCleared ((g'.foldl gameStep st).1) p by
    exact h g (pc, 0, none) hp
  intro g'
  induction g' with
  | nil =>
    intro st hmem
    simp at hmem
  | cons ur rest ih =>
    intro st hmem
    rw [List.foldl_cons]
    rcases List.mem_cons.mp hmem with heq | hmem'
    · subst heq
      have hpc1 : lossCleared
          (if 1 < (p, rp).2 then clearLoss st.1 (p, rp).1 else st.1) p := by
        rw [if_pos h1]
        exact lossCleared_clearLoss st.1 p
      have hcl : lossCleared (gameStep st (p, rp)).1 p := by
        rcases gameStep_pc_cases st (p, rp) with hc | ⟨z, hc⟩
        · rw [hc]; exact hpc1
        · rw [hc]; exact lossCleared_mono (pcLe_clearWin _ z) hpc1
      exact lossCleared_mono (pcLe_foldl_gameStep rest (gameStep st (p, rp))) hcl
    · exact ih (gameStep st ur) hmem'

instance (games : List Ranking) (p : Player) : Decidable (hasWinEvt games p) := by
  unfold hasWinEvt; infer_instance

instance (games : List Ranking) (p : Player) : Decidable (hasLossEvt games p) := by
  unfold hasLossEvt; infer_instance

/-- The list `allPlayers` over a cons corpus. -/
theorem allPlayers_cons (g : Ranking) (rest : List Ranking) :
    allPlayers (g :: rest) = keys g ++ allPlayers rest := by
  simp [allPlayers]

/-- A successful lookup comes from an entry of the dict. -/
theorem pcLookup_eq_some_mem {pc : PC} {u : Player} {wl : Nat × Nat}
    (h : pcLookup pc u = some wl) : (u, wl) ∈ pc := by
  induction pc with
  | nil => simp [pcLookup] at h
  | cons x xs ih =>
    rw [pcLookup] at h
    split at h
    · rw [Option.some.injEq] at h
      rename_i heq
      have hux : (u, wl) = x := by rw [← heq, ← h]
      rw [hux]
      exact List.mem_cons_self x xs
    · exact List.mem_cons_of_mem x (ih h)

/-- Keys of the final `pc` are participants of the corpus. -/
theorem buildPC_keys (games : List Ranking) {u : Player}
    (hu : u ∈ pcKeys (buildPC games)) : u ∈ allPlayers games := by
  suffices h : ∀ (gs : List Ranking) (pc : PC) (u : Player),
      u ∈ pcKeys (gs.foldl processGame pc) → u ∈ pcKeys pc ∨ u ∈ allPlayers gs by
    rcases h games [] u hu with h' | h'
    · simp [pcKeys] at h'
    · exact h'
  intro gs
  induction gs with
  | nil =>
    intro pc u hu
    exact Or.inl hu
  | cons g rest ih =>
    intro pc u hu
    rw [List.foldl_cons] at hu
    rcases ih (processGame pc g) u hu with h | h
    · rcases processGame_keys pc g h with h' | h'
      · exact Or.inl h'
      · right
        rw [allPlayers_cons]
        exact List.mem_append_left _ h'
    · right
      rw [allPlayers_cons]
      exact List.mem_append_right _ h

/-- A competitor with a win-class event anywhere in the corpus (of
tie-free games of truthy competitors with positive ranks) ends with its
missing-win flag cleared. -/
theorem buildPC_win (games : List Ranking)
    (hnd : ∀ g ∈ games, (rvalues g).Nodup)
    (hpos : ∀ g ∈ games, ∀ x ∈ g, 1 ≤ x.2)
    (htr : ∀ g ∈ games, ∀ x ∈ g, x.1.truthy = true)
    {p : Player} (hw : hasWinEvt games p) : winCleared (buildPC games) p := by
  obtain ⟨g, hg, x, hx, hxp, y, hy, hlt⟩ := hw
  obtain ⟨s, t, rfl⟩ := List.append_of_mem hg
  have hgmem : g ∈ s ++ g :: t := by simp
  have hsplit : buildPC (s ++ g :: t) =
      t.foldl processGame (processGame (s.foldl processGame []) g) := by
    rw [buildPC, List.foldl_append, List.foldl_cons]
  rw [hsplit]
  apply winCleared_mono (pcLe_foldl_processGame t _)
  have hx' : (p, x.2) ∈ g := by
    rw [← hxp]
    exact hx
  exact processGame_win _ g (hnd g hgmem) (hpos g hgmem) (htr g hgmem) hx' hy hlt

/-- A competitor with a loss-class event anywhere in the corpus (with
positive ranks) ends with its missing-loss flag cleared. -/
theorem buildPC_loss (games : List Ranking)
    (hpos : ∀ g ∈ games, ∀ x ∈ g, 1 ≤ x.2)
    {p : Player} (hl : hasLossEvt games p) : lossCleared (buildPC games) p := by
  obtain ⟨g, hg, x, hx, hxp, y, hy, hlt⟩ := hl
  obtain ⟨s, t, rfl⟩ := List.append_of_mem hg
  have hgmem : g ∈ s ++ g :: t := by simp
  have hsplit : buildPC (s ++ g :: t) =
      t.foldl processGame (processGame (s.foldl processGame []) g) := by
    rw [buildPC, List.foldl_append, List.foldl_cons]
  rw [hsplit]
  apply lossCleared_mono (pcLe_foldl_processGame t _)
  have hx' : (p, x.2) ∈ g := by
    rw [← hxp]
    exact hx
  exact processGame_loss _ g hx' (lt_of_le_of_lt (hpos g hgmem y hy) hlt)

/-- C7 (amended): on a corpus of tie-free games of truthy (real)
competitors with positive finish positions, in which every participant has
at least one win-class and at least one loss-class event, `check_games`
returns `(None, None)` — falsy "no violators" sentinels rather than two
empty lists. -/
theorem claim_C7 (games : List Ranking)
    (hnd : ∀ g ∈ games, (rvalues g).Nodup)
    (hpos : ∀ g ∈ games, ∀ x ∈ g, 1 ≤ x.2)
    (htr : ∀ g ∈ games, ∀ x ∈ g, x.1.truthy = true)
    (hwin : ∀ p ∈ allPlayers games, hasWinEvt games p)
    (hloss : ∀ p ∈ allPlayers games, hasLossEvt games p) :
    check_games games = Except.ok (none, none) := by
  have hall : ∀ x ∈ buildPC games, x.2.1 = 0 ∧ x.2.2 = 0 := by
    intro x hx
    have hkey : x.1 ∈ pcKeys (buildPC games) := List.mem_map_of_mem Prod.fst hx
    have hp := buildPC_keys games hkey
    obtain ⟨l, hlk⟩ := buildPC_win games hnd hpos htr (hwin x.1 hp)
    obtain ⟨w, hwk⟩ := buildPC_loss games hpos (hloss x.1 hp)
    rw [hlk, Option.some.injEq, Prod.mk.injEq] at hwk
    have hmem := pcLookup_eq_some_mem hlk
    have hxeq : x = (x.1, 0, l) :=
      mem_unique_key (buildPC_good games).2 hx hmem rfl
    rw [hxeq]
    exact ⟨rfl, hwk.2⟩
  have hsum : ((buildPC games).map (fun x => x.2.1 + x.2.2)).sum = 0 := by
    apply List.sum_eq_zero
    intro v hv
    rcases List.mem_map.mp hv with ⟨x, hx, rfl⟩
    obtain ⟨h1, h2⟩ := hall x hx
    omega
  rw [check_games_eq, if_neg (by omega)]

/-- A corpus in which every competitor has a win-class and a loss-class
event, but competitor 1 is tied with competitor 0 at their game-1 best. -/
def corpusC7 : List Ranking :=
  [[(Player.real 0, 2), (Player.real 1, 2), (Player.real 2, 5)],
   [(Player.real 1, 2), (Player.real 0, 1)],
   [(Player.real 2, 1), (Player.real 0, 2)]]

/-- C7, counterexample: on `corpusC7` every competitor has at least one
win-class and one loss-class event, but the validator does not return two
empty lists — it reports competitor 1 as having "no win" (the tie at
position 2 hides competitor 1's win over competitor 2), returning
`(some [], some [real 1])`; on fully-satisfied corpora it returns
`(None, None)`, not `([], [])`, in any case. -/
theorem claim_C7_counterexample :
    (∀ p ∈ allPlayers corpusC7, hasWinEvt corpusC7 p ∧ hasLossEvt corpusC7 p) ∧
      check_games corpusC7 ≠ Except.ok (some [], some []) := by
  constructor
  · decide
  · intro h
    have h2 : check_games corpusC7 =
        Except.ok (some [], some [Player.real 1]) := rfl
    rw [h2] at h
    simp at h

/-- Witness for C7 at a concrete corpus satisfying all the hypotheses. -/
theorem claim_C7_witness :
    check_games [[(Player.real 0, 1), (Player.real 1, 2)],
      [(Player.real 0, 2), (Player.real 1, 1)]] = Except.ok (none, none) :=
  claim_C7 [[(Player.real 0, 1), (Player.real 1, 2)],
      [(Player.real 0, 2), (Player.real 1, 1)]]
    (by decide) (by decide) (by decide) (by decide) (by decide)

end PLRanking
